import Mathlib

/-!
# nnoops::UBigInteger — fixed-width unsigned integers over byte limbs

A shallow embedding of `include/nnoops/long_arithmetic/unsigned_big_integer.hpp`.

* `UBigInteger SIZE` carries the `std::array<uint8_t, SIZE / 8> data` member as a
  list of naturals, limb 0 first.  `UBigInteger.WF` states what the C++ type
  guarantees: the template constraint `SIZE % 8 == 0 && SIZE != 0`, the array
  length `SIZE / 8`, and every limb being a `uint8_t`.
* `uint64_t` arithmetic is written with an explicit `% 2 ^ 64`, `uint8_t` stores
  with an explicit low-byte truncation.
* `assert`, `throw` and array accesses whose index is not bounded by a loop guard
  are fallible; they return a `Fault` through `Except`.
* `assert` depends on the build.  `init`, `ofSigned` and `divAssign` are the build
  with assertions compiled in; `initIn`, `ofSignedIn` and `divAssignRun` take the
  build as an argument (`false` is a build with `NDEBUG`).
* `operator/=` is given twice.  `divAssign` stops at the first out-of-range read.
  `divAssignRun` runs the body on the frame of the call, statement group after
  statement group, and lets an out-of-range read yield the byte `oob i` that lies
  there, so that the statements after such a read are run too.  Lemma
  `divAssignRun_agrees` relates the two.
-/

namespace nnoops

/-- The constant `static const uint8_t BASE = 0xff`. -/
def BASE : Nat := 0xff

/-- The ways an operation can stop without a value. -/
inductive Fault where
  /-- `assert(val >= 0 && "value should be positive")` failed. -/
  | assertPositive
  /-- `assert(data.size() >= val_size && "data has a small size")` failed. -/
  | assertCapacity
  /-- `throw arith_error("devide by zero")`. -/
  | arithError
  /-- An access `data[i]` with `i` outside `0 .. data.size() - 1`. -/
  | outOfRange
  /-- A native integer division whose divisor is zero. -/
  | nativeDivZero
deriving DecidableEq, Repr

/-- The struct `UBigInteger<SIZE>`: its only member is the limb array. -/
structure UBigInteger (SIZE : Nat) where
  data : List Nat
deriving DecidableEq, Repr

/-- What a call of `operator/=` that returns hands back: a reference to its local
`result`, which is destroyed at the return, so that no quotient can be read
through it.  `held` is what that local held when the call returned. -/
inductive Returned (SIZE : Nat) where
  | localResult (held : UBigInteger SIZE)
deriving DecidableEq, Repr

/-- Little-endian base-256 reading of a limb sequence. -/
def limbsValue : List Nat → Nat
  | [] => 0
  | x :: xs => x + 256 * limbsValue xs

namespace UBigInteger

variable {SIZE : Nat}

/-- Numeric value of an instance. -/
def value (a : UBigInteger SIZE) : Nat := limbsValue a.data

/-- What the C++ type guarantees of every instance of `UBigInteger<SIZE>`. -/
def WF (a : UBigInteger SIZE) : Prop :=
  SIZE % 8 = 0 ∧ SIZE ≠ 0 ∧ a.data.length = SIZE / 8 ∧ ∀ x ∈ a.data, x < 256

instance (a : UBigInteger SIZE) : Decidable a.WF := by
  unfold WF; infer_instance

/-- `UBigInteger() = default` with `data{}`: every limb is zero. -/
def zero (SIZE : Nat) : UBigInteger SIZE := ⟨List.replicate (SIZE / 8) 0⟩

/-- The body of `init(T value)` with `val_size = sizeof(T)`. -/
def init (SIZE valSize value : Nat) : Except Fault (UBigInteger SIZE) :=
  if SIZE / 8 ≥ valSize then
    .ok ⟨(List.range (SIZE / 8)).map fun i =>
      if i < valSize then (value >>> (8 * i)) % 256 else 0⟩
  else
    .error .assertCapacity

/-- `UBigInteger(uint8_t val)`. -/
def ofUInt8 (SIZE val : Nat) : Except Fault (UBigInteger SIZE) := init SIZE 1 val

/-- `UBigInteger(uint16_t val)`. -/
def ofUInt16 (SIZE val : Nat) : Except Fault (UBigInteger SIZE) := init SIZE 2 val

/-- `UBigInteger(uint32_t val)`. -/
def ofUInt32 (SIZE val : Nat) : Except Fault (UBigInteger SIZE) := init SIZE 4 val

/-- `UBigInteger(uint64_t val)`. -/
def ofUInt64 (SIZE val : Nat) : Except Fault (UBigInteger SIZE) := init SIZE 8 val

/-- The signed constructors: `assert(val >= 0)` and then `init` on the value cast
to the unsigned type of `bytes` bytes. -/
def ofSigned (SIZE bytes : Nat) (val : Int) : Except Fault (UBigInteger SIZE) :=
  if val ≥ 0 then init SIZE bytes (val % 2 ^ (8 * bytes)).toNat
  else .error .assertPositive

/-- `UBigInteger(int8_t val)`. -/
def ofInt8 (SIZE : Nat) (val : Int) : Except Fault (UBigInteger SIZE) := ofSigned SIZE 1 val

/-- `UBigInteger(int16_t val)`. -/
def ofInt16 (SIZE : Nat) (val : Int) : Except Fault (UBigInteger SIZE) := ofSigned SIZE 2 val

/-- `UBigInteger(int32_t val)`; an `int` literal such as `0` selects this one. -/
def ofInt32 (SIZE : Nat) (val : Int) : Except Fault (UBigInteger SIZE) := ofSigned SIZE 4 val

/-- `UBigInteger(int64_t val)`. -/
def ofInt64 (SIZE : Nat) (val : Int) : Except Fault (UBigInteger SIZE) := ofSigned SIZE 8 val

/-- The loop of `operator++()`:
`for (i = 0; i < data.size() && ++data[i] == 0; ++i)`.
The first argument is `data.size() - i`, so its `0` case is the exit
`i < data.size()` being false. -/
def incLoop : Nat → Nat → List Nat → List Nat
  | 0, _, data => data
  | rem + 1, i, data =>
    let data1 := data.set i ((data.getD i 0 + 1) % 256)
    if data1.getD i 0 = 0 then incLoop rem (i + 1) data1 else data1

/-- Prefix `operator++()`. -/
def preInc (a : UBigInteger SIZE) : UBigInteger SIZE :=
  ⟨incLoop (SIZE / 8) 0 a.data⟩

/-- Postfix `operator++(int)`: the returned copy and the receiver afterwards. -/
def postInc (a : UBigInteger SIZE) : UBigInteger SIZE × UBigInteger SIZE :=
  let ret := a
  (ret, preInc a)

/-- The loop of `operator--()`:
`for (i = 0; i < data.size() && --data[i] == BASE; ++i)`.
The first argument is `data.size() - i`. -/
def decLoop : Nat → Nat → List Nat → List Nat
  | 0, _, data => data
  | rem + 1, i, data =>
    let data1 := data.set i ((data.getD i 0 + 255) % 256)
    if data1.getD i 0 = BASE then decLoop rem (i + 1) data1 else data1

/-- Prefix `operator--()`. -/
def preDec (a : UBigInteger SIZE) : UBigInteger SIZE :=
  ⟨decLoop (SIZE / 8) 0 a.data⟩

/-- Postfix `operator--(int)`: the returned copy and the receiver afterwards. -/
def postDec (a : UBigInteger SIZE) : UBigInteger SIZE × UBigInteger SIZE :=
  let ret := a
  (ret, preDec a)

/-- One iteration of the loop of `operator+=`, on the pair `(carry, this->data)`. -/
def addStep (b : List Nat) (st : Nat × List Nat) (i : Nat) : Nat × List Nat :=
  let n := (st.1 + st.2.getD i 0 + b.getD i 0) % 2 ^ 64
  (n >>> 8, st.2.set i (n &&& BASE))

/-- `operator+=`: the receiver afterwards. -/
def addAssign (self b : UBigInteger SIZE) : UBigInteger SIZE :=
  ⟨((List.range (SIZE / 8)).foldl (addStep b.data) (0, self.data)).2⟩

/-- One iteration of the loop of `operator-=`, on the pair `(carry, this->data)`;
the `uint64_t` subtraction wraps. -/
def subStep (b : List Nat) (st : Nat × List Nat) (i : Nat) : Nat × List Nat :=
  let n := ((st.1 + st.2.getD i 0) % 2 ^ 64 + 2 ^ 64 - b.getD i 0) % 2 ^ 64
  (n >>> 8, st.2.set i (n &&& BASE))

/-- `operator-=`: the receiver afterwards. -/
def subAssign (self b : UBigInteger SIZE) : UBigInteger SIZE :=
  ⟨((List.range (SIZE / 8)).foldl (subStep b.data) (0, self.data)).2⟩

/-- One iteration of the inner loop of `operator*=` for a fixed `i`, on the pair
`(carry, a.data)`. -/
def mulInnerStep (self b : List Nat) (i : Nat) (st : Nat × List Nat) (j : Nat) :
    Nat × List Nat :=
  let n := (st.1 + st.2.getD (i + j) 0 + self.getD i 0 * b.getD j 0) % 2 ^ 64
  (n >>> 8, st.2.set (i + j) (n &&& BASE))

/-- One iteration of the outer loop of `operator*=`: `carry = 0`, then `j` runs
while `i + j < data.size()`. -/
def mulOuterStep (size : Nat) (self b : List Nat) (a : List Nat) (i : Nat) : List Nat :=
  ((List.range (size - i)).foldl (mulInnerStep self b i) (0, a)).2

/-- `operator*=`: the receiver afterwards (the accumulator `a` starts at zero). -/
def mulAssign (self b : UBigInteger SIZE) : UBigInteger SIZE :=
  ⟨(List.range (SIZE / 8)).foldl (mulOuterStep (SIZE / 8) self.data b.data)
    (zero SIZE).data⟩

/-- Unary `operator-()`: complement every limb of a copy, then `++ret`. -/
def neg (a : UBigInteger SIZE) : UBigInteger SIZE :=
  let ret : UBigInteger SIZE :=
    ⟨(List.range (SIZE / 8)).foldl (fun d i => d.set i (255 - a.data.getD i 0)) a.data⟩
  preInc ret

/-- Binary `operator+`. -/
def add (a b : UBigInteger SIZE) : UBigInteger SIZE := addAssign a b

/-- Binary `operator-`. -/
def sub (a b : UBigInteger SIZE) : UBigInteger SIZE := subAssign a b

/-- Binary `operator*`. -/
def mul (a b : UBigInteger SIZE) : UBigInteger SIZE := mulAssign a b

/-- `operator==`. -/
def eq (a b : UBigInteger SIZE) : Bool := a.data == b.data

/-- `operator!=`. -/
def ne (a b : UBigInteger SIZE) : Bool := !(eq a b)

/-- The loop of `compareTo`, entered at index `i` and running while `i != 0`. -/
def compareLoop (self b : List Nat) : Nat → Int
  | 0 => 0
  | i + 1 =>
    if self.getD (i + 1) 0 < b.getD (i + 1) 0 then -1
    else if self.getD (i + 1) 0 > b.getD (i + 1) 0 then 1
    else compareLoop self b i

/-- `compareTo`: the scan starts at `data.size() - 1`. -/
def compareTo (self b : UBigInteger SIZE) : Int :=
  compareLoop self.data b.data (SIZE / 8 - 1)

/-- `operator>`. -/
def gt (a b : UBigInteger SIZE) : Bool := compareTo a b > 0

/-- `operator<`. -/
def lt (a b : UBigInteger SIZE) : Bool := compareTo a b < 0

/-- `operator>=`. -/
def ge (a b : UBigInteger SIZE) : Bool := compareTo a b ≥ 0

/-- `operator<=`. -/
def le (a b : UBigInteger SIZE) : Bool := compareTo a b ≤ 0

/-- A read `data[i]` whose index no loop guard bounds. -/
def readLimb (data : List Nat) (i : Nat) : Except Fault Nat :=
  if i < data.length then .ok (data.getD i 0) else .error .outOfRange

/-- The body of the normalisation loop of `operator/=` up to its `break` test,
on the pair `(n, d)` at index `i`. -/
def normalizeStep (divisor dividend : List Nat) (m i n d : Nat) :
    Except Fault (Nat × Nat) := do
  let x ← readLimb divisor i
  let (n, d) := if x ≠ 0 ∧ m = 0 then (i, x) else (n, d)
  let y ← readLimb dividend i
  let n := if y ≠ 0 ∧ n = 0 then (i + 2 ^ 64 - m) % 2 ^ 64 else n
  pure (n, d)

/-- The normalisation loop `for (size_t i = SIZE - 1;; --i)` of `operator/=`,
entered at index `i`; it leaves through `(m == 0 && n == 0) || i == 0`. -/
def normalizeLoop (divisor dividend : List Nat) (m : Nat) :
    Nat → Nat → Nat → Except Fault (Nat × Nat)
  | 0, n, d => normalizeStep divisor dividend m 0 n d
  | i + 1, n, d => do
    let (n1, d1) ← normalizeStep divisor dividend m (i + 1) n d
    if m = 0 ∧ n1 = 0 then pure (n1, d1)
    else normalizeLoop divisor dividend m i n1 d1

/-- The body of the quotient loop of `operator/=` for one `j`: it computes the
trial digit and evaluates the test, whose branch is empty.  Indices are
`uint64_t` sums; operands are evaluated left to right. -/
def quotientStep (b dividend divisor : UBigInteger SIZE) (n j : Nat) :
    Except Fault Unit := do
  let hi ← readLimb dividend.data ((j + n + 1) % 2 ^ 64)
  let lo ← readLimb dividend.data ((j + n) % 2 ^ 64)
  let el1 := hi * BASE + lo
  let dn ← readLimb divisor.data n
  let r := el1 &&& dn
  if dn = 0 then throw Fault.nativeDivZero
  let q := el1 / dn
  if q = BASE then pure ()
  else do
    let dn1 ← readLimb divisor.data ((n + 2 ^ 64 - 1) % 2 ^ 64)
    let lhs ← ofUInt64 SIZE ((q * dn1) % 2 ^ 64)
    let rr ← ofUInt64 SIZE r
    let low ← readLimb dividend.data ((j + n + 2 ^ 64 - 1) % 2 ^ 64)
    let lowBig ← ofUInt8 SIZE low
    let _test := gt lhs (add (mul b rr) lowBig)
    pure ()

/-- The quotient loop `for (int64_t j = m;; --j)` of `operator/=`, entered at `j`;
it leaves through `j == 0`. -/
def quotientLoop (b dividend divisor : UBigInteger SIZE) (n : Nat) :
    Nat → Except Fault Unit
  | 0 => quotientStep b dividend divisor n 0
  | j + 1 => do
    quotientStep b dividend divisor n (j + 1)
    quotientLoop b dividend divisor n j

/-- What `operator/=` hands back, or the fault that stops it, in a build with
assertions compiled in.  Both `return result` statements hand back a reference to
the local `result`. -/
def divAssignResult (self b : UBigInteger SIZE) : Except Fault (Returned SIZE) := do
  let divisor := b
  let dividend := self
  let result ← ofInt32 SIZE 0
  let _remainder ← ofInt32 SIZE 0
  if gt b self then
    return Returned.localResult result
  let zeroBig ← ofInt32 SIZE 0
  if eq b zeroBig then
    throw Fault.arithError
  -- normalize
  let m := 0
  let (n, d) ← normalizeLoop divisor.data dividend.data m (SIZE - 1) 0 0
  if d = 0 then throw Fault.nativeDivZero
  let d := BASE / d
  let (dividend, divisor) ←
    if d ≠ 1 then do
      let dBig ← ofUInt64 SIZE d
      pure (mulAssign dividend dBig, mulAssign divisor dBig)
    else pure (dividend, divisor)
  quotientLoop b dividend divisor n m
  return Returned.localResult result

/-- `operator/=` in a build with assertions compiled in, an out-of-range read
being a fault: the receiver next to what is handed back or the fault raised. -/
def divAssign (self b : UBigInteger SIZE) :
    UBigInteger SIZE × Except Fault (Returned SIZE) :=
  (self, divAssignResult self b)

/-- The body of `init(T value)` in either build: with assertions compiled in it
is `init`; with `NDEBUG` the `assert` is compiled out and the loop alone runs. -/
def initIn (assertions : Bool) (SIZE valSize value : Nat) : Except Fault (UBigInteger SIZE) :=
  if assertions then init SIZE valSize value
  else .ok ⟨(List.range (SIZE / 8)).map fun i =>
    if i < valSize then (value >>> (8 * i)) % 256 else 0⟩

/-- The signed constructors in either build: with assertions compiled in they are
`ofSigned`; with `NDEBUG` the sign `assert` is compiled out and the value is cast
to the unsigned type of `bytes` bytes and handed to `init`. -/
def ofSignedIn (assertions : Bool) (SIZE bytes : Nat) (val : Int) :
    Except Fault (UBigInteger SIZE) :=
  if assertions then ofSigned SIZE bytes val
  else initIn false SIZE bytes (val % 2 ^ (8 * bytes)).toNat

/-- A read `data[i]` in an execution that goes on past an out-of-range index:
outside the array it yields the byte `oob i` that lies there. -/
def readLimbOr (oob : Nat → Nat) (data : List Nat) (i : Nat) : Nat :=
  if i < data.length then data.getD i 0 else oob i % 256

/-- The body of the normalisation loop of `operator/=` up to its `break` test, as
`normalizeStep`, with reads that go on past the array. -/
def normalizeStepOr (oob : Nat → Nat) (divisor dividend : List Nat) (m i n d : Nat) :
    Nat × Nat :=
  let x := readLimbOr oob divisor i
  let (n, d) := if x ≠ 0 ∧ m = 0 then (i, x) else (n, d)
  let y := readLimbOr oob dividend i
  let n := if y ≠ 0 ∧ n = 0 then (i + 2 ^ 64 - m) % 2 ^ 64 else n
  (n, d)

/-- The normalisation loop `for (size_t i = SIZE - 1;; --i)`, as `normalizeLoop`,
with reads that go on past the array. -/
def normalizeLoopOr (oob : Nat → Nat) (divisor dividend : List Nat) (m : Nat) :
    Nat → Nat → Nat → Nat × Nat
  | 0, n, d => normalizeStepOr oob divisor dividend m 0 n d
  | i + 1, n, d =>
    let (n1, d1) := normalizeStepOr oob divisor dividend m (i + 1) n d
    if m = 0 ∧ n1 = 0 then (n1, d1)
    else normalizeLoopOr oob divisor dividend m i n1 d1

/-- The body of the quotient loop of `operator/=` for one `j`, as `quotientStep`,
in either build and with reads that go on past the array. -/
def quotientStepOr (assertions : Bool) (oob : Nat → Nat)
    (b dividend divisor : UBigInteger SIZE) (n j : Nat) : Except Fault Unit := do
  let hi := readLimbOr oob dividend.data ((j + n + 1) % 2 ^ 64)
  let lo := readLimbOr oob dividend.data ((j + n) % 2 ^ 64)
  let el1 := hi * BASE + lo
  let dn := readLimbOr oob divisor.data n
  let r := el1 &&& dn
  if dn = 0 then throw Fault.nativeDivZero
  let q := el1 / dn
  if q = BASE then pure ()
  else do
    let dn1 := readLimbOr oob divisor.data ((n + 2 ^ 64 - 1) % 2 ^ 64)
    let lhs ← initIn assertions SIZE 8 ((q * dn1) % 2 ^ 64)
    let rr ← initIn assertions SIZE 8 r
    let low := readLimbOr oob dividend.data ((j + n + 2 ^ 64 - 1) % 2 ^ 64)
    let lowBig ← initIn assertions SIZE 1 low
    let _test := gt lhs (add (mul b rr) lowBig)
    pure ()

/-- The quotient loop `for (int64_t j = m;; --j)`, as `quotientLoop`, in either
build and with reads that go on past the array. -/
def quotientLoopOr (assertions : Bool) (oob : Nat → Nat)
    (b dividend divisor : UBigInteger SIZE) (n : Nat) : Nat → Except Fault Unit
  | 0 => quotientStepOr assertions oob b dividend divisor n 0
  | j + 1 => do
    quotientStepOr assertions oob b dividend divisor n (j + 1)
    quotientLoopOr assertions oob b dividend divisor n j

/-- The objects a call of `operator/=` can touch: the receiver `*this`, the
argument `b`, and the locals of the body. -/
structure DivFrame (SIZE : Nat) where
  self : UBigInteger SIZE
  b : UBigInteger SIZE
  divisor : UBigInteger SIZE
  dividend : UBigInteger SIZE
  result : UBigInteger SIZE
  remainder : UBigInteger SIZE
  m : Nat
  n : Nat
  d : Nat
deriving DecidableEq, Repr

/-- A statement group of `operator/=`: the frame it leaves, and how the call ends
there if it does (a return or a fault). -/
abbrev DivStep (SIZE : Nat) :=
  DivFrame SIZE → DivFrame SIZE × Option (Except Fault (Returned SIZE))

/-- Sequencing of statement groups: the second runs on the frame the first leaves,
unless the call ended in the first. -/
def DivStep.andThen (s t : DivStep SIZE) : DivStep SIZE := fun f =>
  match s f with
  | (f1, none) => t f1
  | (f1, some out) => (f1, some out)

/-- The declarations `divisor = b`, `dividend = *this`, `result = 0`,
`remainder = 0`; each literal `0` goes through the `int32_t` constructor. -/
def declareLocals (assertions : Bool) : DivStep SIZE := fun f =>
  let f1 := { f with divisor := f.b, dividend := f.self }
  match ofSignedIn assertions SIZE 4 0 with
  | .error e => (f1, some (.error e))
  | .ok r =>
    let f2 := { f1 with result := r }
    match ofSignedIn assertions SIZE 4 0 with
    | .error e => (f2, some (.error e))
    | .ok rem => ({ f2 with remainder := rem }, none)

/-- The fast path `if (b > *this) return result;`. -/
def fastPath : DivStep SIZE := fun f =>
  if gt f.b f.self then (f, some (.ok (.localResult f.result))) else (f, none)

/-- The zero check `if (b == 0) throw arith_error(...)`; the literal `0` goes
through the `int32_t` constructor. -/
def zeroCheck (assertions : Bool) : DivStep SIZE := fun f =>
  match ofSignedIn assertions SIZE 4 0 with
  | .error e => (f, some (.error e))
  | .ok zeroBig =>
    if eq f.b zeroBig then (f, some (.error .arithError)) else (f, none)

/-- The declaration `size_t m = 0, n = 0, d = 0;` and the normalisation loop. -/
def normalizeScan (oob : Nat → Nat) : DivStep SIZE := fun f =>
  let f1 := { f with m := 0, n := 0, d := 0 }
  let nd := normalizeLoopOr oob f1.divisor.data f1.dividend.data f1.m (SIZE - 1) f1.n f1.d
  ({ f1 with n := nd.1, d := nd.2 }, none)

/-- The scale `d = BASE / d; if (d != 1) { dividend *= d; divisor *= d; }`; each
`*= d` converts `d` through the `uint64_t` constructor. -/
def scaleOperands (assertions : Bool) : DivStep SIZE := fun f =>
  if f.d = 0 then (f, some (.error .nativeDivZero))
  else
    let f1 := { f with d := BASE / f.d }
    if f1.d ≠ 1 then
      match initIn assertions SIZE 8 f1.d with
      | .error e => (f1, some (.error e))
      | .ok dBig =>
        let f2 := { f1 with dividend := mulAssign f1.dividend dBig }
        match initIn assertions SIZE 8 f2.d with
        | .error e => (f2, some (.error e))
        | .ok dBig2 => ({ f2 with divisor := mulAssign f2.divisor dBig2 }, none)
    else (f1, none)

/-- The quotient loop, whose body assigns to nothing outside itself. -/
def quotientDigits (assertions : Bool) (oob : Nat → Nat) : DivStep SIZE := fun f =>
  match quotientLoopOr assertions oob f.b f.dividend f.divisor f.n f.m with
  | .error e => (f, some (.error e))
  | .ok _ => (f, none)

/-- The final `return result;`. -/
def returnResult : DivStep SIZE := fun f =>
  (f, some (.ok (.localResult f.result)))

/-- The frame at the entry of `operator/=`: the receiver and the argument; the
locals are not declared yet and hold nothing of interest. -/
def enterFrame (self b : UBigInteger SIZE) : DivFrame SIZE :=
  { self := self, b := b, divisor := zero SIZE, dividend := zero SIZE,
    result := zero SIZE, remainder := zero SIZE, m := 0, n := 0, d := 0 }

/-- The body of `operator/=`, statement group after statement group, in either
build and with reads that go on past the array. -/
def divAssignBody (assertions : Bool) (oob : Nat → Nat) : DivStep SIZE :=
  (declareLocals assertions).andThen <| fastPath.andThen <|
  (zeroCheck assertions).andThen <| (normalizeScan oob).andThen <|
  (scaleOperands assertions).andThen <| (quotientDigits assertions oob).andThen <|
  returnResult

/-- A call `self /= b` run to its end: the frame it leaves, the receiver in it,
and how the call ended. -/
def divAssignRun (assertions : Bool) (oob : Nat → Nat) (self b : UBigInteger SIZE) :
    DivFrame SIZE × Option (Except Fault (Returned SIZE)) :=
  divAssignBody assertions oob (enterFrame self b)

end UBigInteger

/-- Add-assign as the specification words it: the carry into limb `i` is the
sum of the previous limb position divided by 256, starting from no carry. -/
def specAddCarry (a b : List Nat) : Nat → Nat
  | 0 => 0
  | i + 1 => (specAddCarry a b i + a.getD i 0 + b.getD i 0) / 256

/-- Loop invariant of `operator+=` after `k` iterations. -/
def AddInv (a b : List Nat) (L k : Nat) (st : Nat × List Nat) : Prop :=
  st.2.length = L ∧ (∀ x ∈ st.2, x < 256) ∧
  (∀ j, k ≤ j → st.2.getD j 0 = a.getD j 0) ∧
  st.1 = specAddCarry a b k ∧ st.1 ≤ 1 ∧
  (∀ j, j < k → st.2.getD j 0 = (specAddCarry a b j + a.getD j 0 + b.getD j 0) % 256) ∧
  limbsValue st.2 + st.1 * 256 ^ k = limbsValue a + limbsValue (b.take k)

/-- Loop invariant of the inner loop of `operator*=` after `j` iterations. -/
def MulInnerInv (self b a0 : List Nat) (L i j : Nat) (st : Nat × List Nat) : Prop :=
  st.2.length = L ∧ (∀ x ∈ st.2, x < 256) ∧ st.1 < 256 ∧
  limbsValue st.2 + st.1 * 256 ^ (i + j)
    = limbsValue a0 + self.getD i 0 * 256 ^ i * limbsValue (b.take j)

/-- Loop invariant of the outer loop of `operator*=` after `i` iterations. -/
def MulOuterInv (self b : List Nat) (L i : Nat) (a : List Nat) : Prop :=
  a.length = L ∧ (∀ x ∈ a, x < 256) ∧
  ∃ c, limbsValue a + c * 256 ^ L = limbsValue (self.take i) * limbsValue b

/-- Loop invariant of the complement loop of unary `operator-` after `k` iterations. -/
def NegInv (a : List Nat) (L k : Nat) (d : List Nat) : Prop :=
  d.length = L ∧ (∀ x ∈ d, x < 256) ∧
  (∀ j, k ≤ j → d.getD j 0 = a.getD j 0) ∧
  limbsValue d + 2 * limbsValue (a.take k) + 1 = limbsValue a + 256 ^ k

/-- Loop invariant of `operator-=` after `k` iterations when there are at most 8
limbs: the `uint64_t` carry is a stray multiple `J` of `256 ^ (8 - k)` less the
true borrow `β`. -/
def SubInv (a b : List Nat) (L k : Nat) (st : Nat × List Nat) : Prop :=
  st.2.length = L ∧ (∀ x ∈ st.2, x < 256) ∧
  (∀ j, k ≤ j → st.2.getD j 0 = a.getD j 0) ∧
  ∃ J β, st.1 + β = J ∧ β ≤ 1 ∧ 256 ^ (8 - k) ∣ J ∧ J ≤ 2 ^ 56 ∧ (J = 0 → β = 0) ∧
    limbsValue st.2 + limbsValue (b.take k) = limbsValue a + β * 256 ^ k

/-- Modelled from the spec: the digits of the hex encoder `HexStr` of
`nnoops/strutil.hpp`, which is not among the sources; the specification asks for
lowercase hexadecimal text. -/
def hexDigits : List Char := "0123456789abcdef".toList

/-- Modelled from the spec: one digit of the hex encoder. -/
def hexDigit (n : Nat) : Char := hexDigits.getD n '0'

/-- Modelled from the spec: the hex encoder `HexStr` of `nnoops/strutil.hpp`,
which is not among the sources: given a most-significant-first byte sequence it
returns its lowercase hex text, two digits for each byte. -/
def HexStr : List Nat → List Char
  | [] => []
  | b :: bs => hexDigit (b / 16) :: hexDigit (b % 16) :: HexStr bs

/-- Modelled from the spec: the leading-zero stripper `removeZeros` of
`nnoops/strutil.hpp`, which is not among the sources: it removes leading zero
pairs and a lone leading zero nibble, and keeps at least one digit. -/
def removeZeros : List Char → List Char
  | [] => []
  | [c] => [c]
  | c :: d :: rest => if c = '0' then removeZeros (d :: rest) else c :: d :: rest

/-- `toPrettyString`: `HexStr(val.data.rbegin(), val.data.rend())`, then
`removeZeros(ret)`. -/
def toPrettyString {SIZE : Nat} (val : UBigInteger SIZE) : String :=
  String.mk (removeZeros (HexStr val.data.reverse))

/-- The number a hexadecimal text denotes, most significant digit first. -/
def hexValue (s : List Char) : Nat :=
  s.foldl (fun acc c => 16 * acc + hexDigits.indexOf c) 0

end nnoops

/-! ## Lemmas on limb sequences and loops -/

namespace nnoops

open UBigInteger

theorem land_BASE (n : Nat) : n &&& BASE = n % 256 := by
  have h := Nat.and_pow_two_sub_one_eq_mod n 8
  simpa [BASE] using h

theorem shr8 (n : Nat) : n >>> 8 = n / 256 := by
  simp [Nat.shiftRight_eq_div_pow]

theorem limbsValue_lt (l : List Nat) (h : ∀ x ∈ l, x < 256) :
    limbsValue l < 256 ^ l.length := by
  induction l with
  | nil => simp [limbsValue]
  | cons x xs ih =>
    have hx : x < 256 := h x (List.mem_cons_self _ _)
    have hxs := ih (fun y hy => h y (List.mem_cons_of_mem _ hy))
    simp only [limbsValue, List.length_cons, pow_succ]
    omega

theorem limbsValue_set (l : List Nat) (k v : Nat) (hk : k < l.length) :
    limbsValue (l.set k v) + l.getD k 0 * 256 ^ k = limbsValue l + v * 256 ^ k := by
  induction l generalizing k with
  | nil => simp at hk
  | cons x xs ih =>
    cases k with
    | zero => simp [limbsValue]; omega
    | succ k =>
      have h := ih k (by simpa using hk)
      simp only [List.set_cons_succ, limbsValue, List.getD_cons_succ, pow_succ]
      nlinarith [h]

theorem limbsValue_take_succ (l : List Nat) (k : Nat) :
    limbsValue (l.take (k + 1)) = limbsValue (l.take k) + l.getD k 0 * 256 ^ k := by
  induction l generalizing k with
  | nil => simp [limbsValue]
  | cons x xs ih =>
    cases k with
    | zero => simp [limbsValue]
    | succ k =>
      have h := ih k
      simp only [List.take_succ_cons, limbsValue, List.getD_cons_succ, pow_succ] at h ⊢
      rw [h]; ring

theorem mem_set_lt (l : List Nat) (k v : Nat) (hv : v < 256) (h : ∀ x ∈ l, x < 256) :
    ∀ x ∈ l.set k v, x < 256 := by
  intro x hx
  rcases List.mem_or_eq_of_mem_set hx with h1 | h1
  · exact h x h1
  · exact h1 ▸ hv

theorem getD_lt (l : List Nat) (h : ∀ x ∈ l, x < 256) (i : Nat) : l.getD i 0 < 256 := by
  by_cases hi : i < l.length
  · rw [List.getD_eq_getElem _ _ hi]; exact h _ (List.getElem_mem _)
  · rw [List.getD_eq_default _ _ (by omega)]; decide

theorem getD_set_eq (l : List Nat) (k v : Nat) (hk : k < l.length) :
    (l.set k v).getD k 0 = v := by
  simp [List.getD_eq_getElem?_getD, hk]

theorem getD_set_ne (l : List Nat) (k j v : Nat) (h : k ≠ j) :
    (l.set k v).getD j 0 = l.getD j 0 := by
  simp [List.getD_eq_getElem?_getD, List.getElem?_set_ne h]

theorem foldl_range_induction {σ : Type} (f : σ → Nat → σ) (P : Nat → σ → Prop)
    (init : σ) (n : Nat) (h0 : P 0 init)
    (hstep : ∀ k s, k < n → P k s → P (k + 1) (f s k)) :
    P n ((List.range n).foldl f init) := by
  have key : ∀ m, m ≤ n → P m ((List.range m).foldl f init) := by
    intro m
    induction m with
    | zero => intro _; simpa using h0
    | succ m ih =>
      intro hm
      rw [List.range_succ, List.foldl_append]
      exact hstep m _ (by omega) (ih (by omega))
  exact key n (le_refl n)

theorem eq_mod_of_add_mul (r c M t : Nat) (hr : r < M) (h : r + c * M = t) : r = t % M := by
  subst h
  rw [Nat.add_mul_mod_self_right, Nat.mod_eq_of_lt hr]

theorem two_pow_size (SIZE : Nat) (h : SIZE % 8 = 0) : 2 ^ SIZE = 256 ^ (SIZE / 8) := by
  have : SIZE = 8 * (SIZE / 8) := by omega
  conv_lhs => rw [this]
  rw [pow_mul]; norm_num

theorem addInv_step (a b : List Nat) (L k : Nat) (st : Nat × List Nat)
    (hb : ∀ x ∈ b, x < 256) (ha : ∀ x ∈ a, x < 256)
    (hk : k < L) (h : AddInv a b L k st) : AddInv a b L (k + 1) (addStep b st k) := by
  obtain ⟨hlen, hlt, hrest, hc, hc1, hdone, hval⟩ := h
  have hak : a.getD k 0 < 256 := getD_lt a ha k
  have hbk : b.getD k 0 < 256 := getD_lt b hb k
  have hdk : st.2.getD k 0 = a.getD k 0 := hrest k (le_refl k)
  have hn : (st.1 + st.2.getD k 0 + b.getD k 0) % 2 ^ 64
      = st.1 + a.getD k 0 + b.getD k 0 := by
    rw [hdk]; apply Nat.mod_eq_of_lt
    have : (2:Nat) ^ 64 = 18446744073709551616 := by norm_num
    omega
  have hkl : k < st.2.length := by omega
  simp only [addStep, hn, land_BASE, shr8]
  refine ⟨by simp [hlen], ?_, ?_, ?_, ?_, ?_, ?_⟩
  · exact mem_set_lt _ _ _ (Nat.mod_lt _ (by norm_num)) hlt
  · intro j hj
    rw [getD_set_ne _ _ _ _ (by omega)]
    exact hrest j (by omega)
  · simp only [specAddCarry, ← hc]
  · omega
  · intro j hj
    by_cases hjk : j = k
    · subst hjk
      rw [getD_set_eq _ _ _ hkl, ← hc]
    · rw [getD_set_ne _ _ _ _ (fun h => hjk h.symm)]
      exact hdone j (by omega)
  · have hs := limbsValue_set st.2 k ((st.1 + a.getD k 0 + b.getD k 0) % 256) hkl
    rw [hdk] at hs
    rw [limbsValue_take_succ, pow_succ]
    have hdm : (256 * ((st.1 + a.getD k 0 + b.getD k 0) / 256)
        + (st.1 + a.getD k 0 + b.getD k 0) % 256) * 256 ^ k
        = (st.1 + a.getD k 0 + b.getD k 0) * 256 ^ k := by
      rw [Nat.div_add_mod]
    dsimp only
    linarith [hs, hval, hdm]

theorem addLoop_inv (a b : List Nat) (L : Nat) (hlen : a.length = L)
    (ha : ∀ x ∈ a, x < 256) (hb : ∀ x ∈ b, x < 256) :
    AddInv a b L L ((List.range L).foldl (addStep b) (0, a)) := by
  apply foldl_range_induction (addStep b) (AddInv a b L) (0, a) L
  · refine ⟨hlen, ha, fun _ _ => rfl, rfl, by simp, fun j hj => by omega, by simp [limbsValue]⟩
  · intro k s hk hs
    exact addInv_step a b L k s hb ha hk hs

theorem limbsValue_take_add_drop (l : List Nat) (k : Nat) :
    limbsValue l = limbsValue (l.take k) + 256 ^ k * limbsValue (l.drop k) := by
  induction l generalizing k with
  | nil => simp [limbsValue]
  | cons x xs ih =>
    cases k with
    | zero => simp [limbsValue]
    | succ k =>
      simp only [List.take_succ_cons, List.drop_succ_cons, limbsValue, pow_succ]
      rw [ih k]; ring

theorem limbsValue_replicate_zero (n : Nat) : limbsValue (List.replicate n 0) = 0 := by
  induction n with
  | zero => rfl
  | succ n ih => simp [List.replicate_succ, limbsValue, ih]

theorem mulInnerInv_step (self b a0 : List Nat) (L i j : Nat) (st : Nat × List Nat)
    (hs : ∀ x ∈ self, x < 256) (hb : ∀ x ∈ b, x < 256)
    (hj : i + j < L) (h : MulInnerInv self b a0 L i j st) :
    MulInnerInv self b a0 L i (j + 1) (mulInnerStep self b i st j) := by
  obtain ⟨hlen, hlt, hc, hval⟩ := h
  have hx : self.getD i 0 < 256 := getD_lt self hs i
  have hbj : b.getD j 0 < 256 := getD_lt b hb j
  have hd : st.2.getD (i + j) 0 < 256 := getD_lt st.2 hlt (i + j)
  have hprod : self.getD i 0 * b.getD j 0 ≤ 255 * 255 :=
    Nat.mul_le_mul (by omega) (by omega)
  have hn : (st.1 + st.2.getD (i + j) 0 + self.getD i 0 * b.getD j 0) % 2 ^ 64
      = st.1 + st.2.getD (i + j) 0 + self.getD i 0 * b.getD j 0 := by
    apply Nat.mod_eq_of_lt
    have : (2:Nat) ^ 64 = 18446744073709551616 := by norm_num
    omega
  have hkl : i + j < st.2.length := by omega
  simp only [mulInnerStep, hn, land_BASE, shr8]
  refine ⟨by simp [hlen], ?_, ?_, ?_⟩
  · exact mem_set_lt _ _ _ (Nat.mod_lt _ (by norm_num)) hlt
  · dsimp only; omega
  · have hset := limbsValue_set st.2 (i + j)
      ((st.1 + st.2.getD (i + j) 0 + self.getD i 0 * b.getD j 0) % 256) hkl
    have hdm : (256 * ((st.1 + st.2.getD (i + j) 0 + self.getD i 0 * b.getD j 0) / 256)
        + (st.1 + st.2.getD (i + j) 0 + self.getD i 0 * b.getD j 0) % 256) * 256 ^ (i + j)
        = (st.1 + st.2.getD (i + j) 0 + self.getD i 0 * b.getD j 0) * 256 ^ (i + j) := by
      rw [Nat.div_add_mod]
    have hpow : (256:Nat) ^ (i + j) = 256 ^ i * 256 ^ j := pow_add _ _ _
    rw [limbsValue_take_succ]
    rw [show i + (j + 1) = (i + j) + 1 from rfl, pow_succ]
    dsimp only
    rw [hpow] at hset hdm hval ⊢
    linarith [hset, hval, hdm]

theorem mulInner_inv (self b a0 : List Nat) (L i : Nat) (hi : i < L)
    (hs : ∀ x ∈ self, x < 256) (hb : ∀ x ∈ b, x < 256)
    (hlen : a0.length = L) (ha0 : ∀ x ∈ a0, x < 256) :
    MulInnerInv self b a0 L i (L - i)
      ((List.range (L - i)).foldl (mulInnerStep self b i) (0, a0)) := by
  apply foldl_range_induction (mulInnerStep self b i) (MulInnerInv self b a0 L i) (0, a0)
  · exact ⟨hlen, ha0, by norm_num, by simp [limbsValue]⟩
  · intro k s hk hinv
    exact mulInnerInv_step self b a0 L i k s hs hb (by omega) hinv

theorem mulOuterInv_step (self b : List Nat) (L i : Nat) (a : List Nat)
    (hs : ∀ x ∈ self, x < 256) (hb : ∀ x ∈ b, x < 256)
    (hi : i < L) (h : MulOuterInv self b L i a) :
    MulOuterInv self b L (i + 1) (mulOuterStep L self b a i) := by
  obtain ⟨hlen, hlt, c, hval⟩ := h
  obtain ⟨hlen1, hlt1, _, hval1⟩ := mulInner_inv self b a L i hi hs hb hlen hlt
  refine ⟨hlen1, hlt1, ?_⟩
  set st := (List.range (L - i)).foldl (mulInnerStep self b i) (0, a) with hst
  have hsplit := limbsValue_take_add_drop b (L - i)
  have hL : i + (L - i) = L := by omega
  rw [hL] at hval1
  have hpow : (256:Nat) ^ L = 256 ^ i * 256 ^ (L - i) := by rw [← pow_add, hL]
  refine ⟨st.1 + self.getD i 0 * limbsValue (b.drop (L - i)) + c, ?_⟩
  rw [limbsValue_take_succ]
  show limbsValue st.2 + _ = _
  rw [hpow] at hval1 hval ⊢
  rw [hsplit] at hval ⊢
  linarith [hval1, hval]

theorem mulOuter_inv (self b : List Nat) (L : Nat)
    (hs : ∀ x ∈ self, x < 256) (hb : ∀ x ∈ b, x < 256) :
    MulOuterInv self b L L
      ((List.range L).foldl (mulOuterStep L self b) (List.replicate L 0)) := by
  apply foldl_range_induction (mulOuterStep L self b) (MulOuterInv self b L)
  · refine ⟨by simp, ?_, 0, by simp [limbsValue, limbsValue_replicate_zero]⟩
    intro x hx
    rw [List.eq_of_mem_replicate hx]; norm_num
  · intro k s hk hinv
    exact mulOuterInv_step self b L k s hs hb hk hinv

theorem limbsValue_eq_zero (l : List Nat) (h : limbsValue l = 0) :
    l = List.replicate l.length 0 := by
  induction l with
  | nil => rfl
  | cons x xs ih =>
    simp only [limbsValue] at h
    have hx : x = 0 := by omega
    have hxs : limbsValue xs = 0 := by omega
    rw [List.length_cons, List.replicate_succ, ← ih hxs, hx]

theorem limbsValue_replicate_max (n : Nat) :
    limbsValue (List.replicate n 255) + 1 = 256 ^ n := by
  induction n with
  | zero => rfl
  | succ n ih =>
    simp only [List.replicate_succ, limbsValue, pow_succ]
    omega

theorem incLoop_spec (rem : Nat) : ∀ (i : Nat) (data : List Nat),
    data.length = i + rem → (∀ x ∈ data, x < 256) →
    (incLoop rem i data).length = i + rem ∧ (∀ x ∈ incLoop rem i data, x < 256) ∧
    ∃ c, c ≤ 1 ∧
      limbsValue (incLoop rem i data) + c * 256 ^ (i + rem) = limbsValue data + 256 ^ i := by
  induction rem with
  | zero =>
    intro i data hlen hlt
    exact ⟨hlen, hlt, 1, le_refl 1, by simp [incLoop]⟩
  | succ rem ih =>
    intro i data hlen hlt
    have hi : i < data.length := by omega
    have hd : data.getD i 0 < 256 := getD_lt data hlt i
    have hset := limbsValue_set data i ((data.getD i 0 + 1) % 256) hi
    have hlt1 := mem_set_lt data i ((data.getD i 0 + 1) % 256) (Nat.mod_lt _ (by norm_num)) hlt
    simp only [incLoop, getD_set_eq data i _ hi]
    by_cases hz : (data.getD i 0 + 1) % 256 = 0
    · rw [if_pos hz]
      obtain ⟨h1, h2, c, hc, hv⟩ :=
        ih (i + 1) (data.set i ((data.getD i 0 + 1) % 256)) (by simp; omega) hlt1
      have e : i + 1 + rem = i + (rem + 1) := by omega
      rw [e] at h1 hv
      refine ⟨h1, h2, c, hc, ?_⟩
      have hd255 : data.getD i 0 = 255 := by omega
      have e1 : (data.getD i 0 + 1) % 256 * 256 ^ i = 0 := by rw [hz]; simp
      have e2 : data.getD i 0 * 256 ^ i = 255 * 256 ^ i := by rw [hd255]
      rw [pow_succ] at hv
      omega
    · rw [if_neg hz]
      refine ⟨by simp; omega, hlt1, 0, by omega, ?_⟩
      have hmod : (data.getD i 0 + 1) % 256 = data.getD i 0 + 1 := by omega
      rw [hmod] at hset ⊢
      rw [Nat.add_mul] at hset
      omega

theorem decLoop_spec (rem : Nat) : ∀ (i : Nat) (data : List Nat),
    data.length = i + rem → (∀ x ∈ data, x < 256) →
    (decLoop rem i data).length = i + rem ∧ (∀ x ∈ decLoop rem i data, x < 256) ∧
    ∃ c, c ≤ 1 ∧
      limbsValue (decLoop rem i data) + 256 ^ i = limbsValue data + c * 256 ^ (i + rem) := by
  induction rem with
  | zero =>
    intro i data hlen hlt
    exact ⟨hlen, hlt, 1, le_refl 1, by simp [decLoop]⟩
  | succ rem ih =>
    intro i data hlen hlt
    have hi : i < data.length := by omega
    have hd : data.getD i 0 < 256 := getD_lt data hlt i
    have hset := limbsValue_set data i ((data.getD i 0 + 255) % 256) hi
    have hlt1 := mem_set_lt data i ((data.getD i 0 + 255) % 256) (Nat.mod_lt _ (by norm_num)) hlt
    simp only [decLoop, getD_set_eq data i _ hi, BASE]
    by_cases hz : (data.getD i 0 + 255) % 256 = 255
    · rw [if_pos hz]
      obtain ⟨h1, h2, c, hc, hv⟩ :=
        ih (i + 1) (data.set i ((data.getD i 0 + 255) % 256)) (by simp; omega) hlt1
      have e : i + 1 + rem = i + (rem + 1) := by omega
      rw [e] at h1 hv
      refine ⟨h1, h2, c, hc, ?_⟩
      have hd0 : data.getD i 0 = 0 := by omega
      have e1 : (data.getD i 0 + 255) % 256 * 256 ^ i = 255 * 256 ^ i := by rw [hz]
      have e2 : data.getD i 0 * 256 ^ i = 0 := by rw [hd0]; simp
      rw [pow_succ] at hv
      omega
    · rw [if_neg hz]
      refine ⟨by simp; omega, hlt1, 0, by omega, ?_⟩
      have hmod : (data.getD i 0 + 255) % 256 + 1 = data.getD i 0 := by omega
      have h2 : ((data.getD i 0 + 255) % 256 + 1) * 256 ^ i = data.getD i 0 * 256 ^ i := by
        rw [hmod]
      rw [Nat.add_mul] at h2
      omega

theorem decLoop_limb (rem : Nat) : ∀ (i : Nat) (data : List Nat),
    data.length = i + rem → (∀ x ∈ data, x < 256) → ∀ j, j < i + rem →
    (j < i → (decLoop rem i data).getD j 0 = data.getD j 0) ∧
    (i ≤ j → (∀ t, i ≤ t → t < j → data.getD t 0 = 0) →
      (decLoop rem i data).getD j 0 = (data.getD j 0 + 255) % 256) ∧
    (i ≤ j → (∃ t, i ≤ t ∧ t < j ∧ data.getD t 0 ≠ 0) →
      (decLoop rem i data).getD j 0 = data.getD j 0) := by
  induction rem with
  | zero =>
    intro i data hlen hlt j hj
    refine ⟨fun _ => rfl, fun h => ?_, fun h => ?_⟩ <;> omega
  | succ rem ih =>
    intro i data hlen hlt j hj
    have hi : i < data.length := by omega
    have hd : data.getD i 0 < 256 := getD_lt data hlt i
    have hlt1 := mem_set_lt data i ((data.getD i 0 + 255) % 256) (Nat.mod_lt _ (by norm_num)) hlt
    simp only [decLoop, getD_set_eq data i _ hi, BASE]
    by_cases hz : (data.getD i 0 + 255) % 256 = 255
    · rw [if_pos hz]
      have hd0 : data.getD i 0 = 0 := by omega
      obtain ⟨h1, h2, h3⟩ :=
        ih (i + 1) (data.set i ((data.getD i 0 + 255) % 256)) (by simp; omega) hlt1 j (by omega)
      refine ⟨fun hji => ?_, fun hij hall => ?_, fun hij hex => ?_⟩
      · rw [h1 (by omega), getD_set_ne _ _ _ _ (by omega)]
      · by_cases hje : j = i
        · subst hje
          rw [h1 (by omega), getD_set_eq _ _ _ hi]
        · rw [h2 (by omega), getD_set_ne _ _ _ _ (fun h => hje h.symm)]
          intro t ht1 ht2
          rw [getD_set_ne _ _ _ _ (by omega)]
          exact hall t (by omega) ht2
      · obtain ⟨t, ht1, ht2, ht3⟩ := hex
        have hti : t ≠ i := fun h => ht3 (h ▸ hd0)
        rw [h3 (by omega) ⟨t, by omega, ht2, by rwa [getD_set_ne _ _ _ _ (fun h => hti h.symm)]⟩,
          getD_set_ne _ _ _ _ (by omega)]
    · rw [if_neg hz]
      have hd0 : data.getD i 0 ≠ 0 := by omega
      refine ⟨fun hji => ?_, fun hij hall => ?_, fun hij hex => ?_⟩
      · rw [getD_set_ne _ _ _ _ (by omega)]
      · by_cases hje : j = i
        · subst hje
          rw [getD_set_eq _ _ _ hi]
        · exact absurd (hall i (le_refl i) (by omega)) hd0
      · obtain ⟨t, ht1, ht2, _⟩ := hex
        rw [getD_set_ne _ _ _ _ (by omega)]

theorem negLoop_inv (a : List Nat) (L : Nat) (hlen : a.length = L)
    (ha : ∀ x ∈ a, x < 256) :
    NegInv a L L ((List.range L).foldl (fun d i => d.set i (255 - a.getD i 0)) a) := by
  apply foldl_range_induction (fun d i => d.set i (255 - a.getD i 0)) (NegInv a L)
  · exact ⟨hlen, ha, fun _ _ => rfl, by simp [limbsValue]⟩
  · intro k d hk h
    obtain ⟨hl, hlt, hrest, hval⟩ := h
    have hak : a.getD k 0 < 256 := getD_lt a ha k
    have hkl : k < d.length := by omega
    have hset := limbsValue_set d k (255 - a.getD k 0) hkl
    rw [hrest k (le_refl k)] at hset
    refine ⟨by simp [hl], mem_set_lt _ _ _ (by omega) hlt, ?_, ?_⟩
    · intro j hj
      rw [getD_set_ne _ _ _ _ (by omega)]
      exact hrest j (by omega)
    · rw [limbsValue_take_succ, pow_succ]
      have e : (255 - a.getD k 0) * 256 ^ k + a.getD k 0 * 256 ^ k = 255 * 256 ^ k := by
        rw [← Nat.add_mul]; congr 1; omega
      omega

theorem ofInt32_zero (SIZE : Nat) (h : 4 ≤ SIZE / 8) :
    ofInt32 SIZE 0 = .ok (zero SIZE) := by
  have hmap : (List.range (SIZE / 8)).map
      (fun i => if i < 4 then ((0 : Nat) >>> (8 * i)) % 256 else 0)
      = List.replicate (SIZE / 8) 0 := by
    apply List.ext_getElem
    · simp
    · intro n h1 h2
      simp
  simp only [ofInt32, ofSigned, init, zero]
  rw [if_pos (le_refl _), if_pos h]
  simp only [Int.zero_emod, Int.toNat_zero]
  rw [hmap]

theorem ofInt32_zero_narrow (SIZE : Nat) (h : SIZE / 8 < 4) :
    ofInt32 SIZE 0 = .error .assertCapacity := by
  simp only [ofInt32, ofSigned, init]
  rw [if_pos (le_refl _), if_neg (by omega)]

theorem normalizeLoop_fault (divisor dividend : List Nat) (m i n d : Nat)
    (h : divisor.length ≤ i) :
    normalizeLoop divisor dividend m i n d = .error .outOfRange := by
  have hr : readLimb divisor i = .error .outOfRange := by
    simp only [readLimb]; rw [if_neg (by omega)]
  cases i with
  | zero => simp only [normalizeLoop, normalizeStep, hr]; rfl
  | succ i => simp only [normalizeLoop, normalizeStep, hr]; rfl

theorem divAssignResult_narrow {SIZE : Nat} (a b : UBigInteger SIZE) (h : SIZE / 8 < 4) :
    divAssignResult a b = .error .assertCapacity := by
  simp only [divAssignResult, ofInt32_zero_narrow SIZE h]; rfl

theorem divAssignResult_wide {SIZE : Nat} (a b : UBigInteger SIZE)
    (hb : b.data.length = SIZE / 8) (h : 4 ≤ SIZE / 8) :
    divAssignResult a b =
      if gt b a then .ok (.localResult (zero SIZE))
      else if eq b (zero SIZE) then .error .arithError
      else .error .outOfRange := by
  have hn : normalizeLoop b.data a.data 0 (SIZE - 1) 0 0 = .error .outOfRange :=
    normalizeLoop_fault _ _ _ _ _ _ (by omega)
  simp only [divAssignResult, ofInt32_zero SIZE h, hn]
  by_cases h1 : gt b a = true
  · simp [h1, bind, Except.bind, pure, Except.pure]
  · by_cases h2 : eq b (zero SIZE) = true
    · simp [h1, h2, bind, Except.bind, pure, Except.pure, throw, throwThe, MonadExceptOf.throw]
    · simp [h1, h2, bind, Except.bind, pure, Except.pure]

theorem compareLoop_zero_left (self b : List Nat) (h : ∀ x ∈ self, x = 0) (i : Nat) :
    compareLoop self b i ≤ 0 := by
  have hz : ∀ j, self.getD j 0 = 0 := by
    intro j
    by_cases hj : j < self.length
    · rw [List.getD_eq_getElem _ _ hj]; exact h _ (List.getElem_mem _)
    · rw [List.getD_eq_default _ _ (by omega)]
  induction i with
  | zero => simp [compareLoop]
  | succ i ih =>
    simp only [compareLoop, hz]
    split
    · decide
    · rw [if_neg (by omega)]; exact ih

theorem addAssign_WF {SIZE : Nat} (a b : UBigInteger SIZE) (ha : a.WF) (hb : b.WF) :
    (addAssign a b).WF := by
  obtain ⟨h8, h0, hlen, hlt⟩ := ha
  obtain ⟨hl, hl2, _⟩ := addLoop_inv a.data b.data (SIZE / 8) hlen hlt hb.2.2.2
  exact ⟨h8, h0, hl, hl2⟩

theorem mulAssign_WF {SIZE : Nat} (a b : UBigInteger SIZE) (ha : a.WF) (hb : b.WF) :
    (mulAssign a b).WF := by
  obtain ⟨h8, h0, _, hlt⟩ := ha
  obtain ⟨hl, hl2, _⟩ := mulOuter_inv a.data b.data (SIZE / 8) hlt hb.2.2.2
  exact ⟨h8, h0, hl, hl2⟩

theorem preInc_WF {SIZE : Nat} (a : UBigInteger SIZE) (ha : a.WF) : (preInc a).WF := by
  obtain ⟨h8, h0, hlen, hlt⟩ := ha
  obtain ⟨hl, hl2, _⟩ := incLoop_spec (SIZE / 8) 0 a.data (by omega) hlt
  exact ⟨h8, h0, by simpa using hl, hl2⟩

theorem preDec_WF {SIZE : Nat} (a : UBigInteger SIZE) (ha : a.WF) : (preDec a).WF := by
  obtain ⟨h8, h0, hlen, hlt⟩ := ha
  obtain ⟨hl, hl2, _⟩ := decLoop_spec (SIZE / 8) 0 a.data (by omega) hlt
  exact ⟨h8, h0, by simpa using hl, hl2⟩

theorem value_lt {SIZE : Nat} (a : UBigInteger SIZE) (ha : a.WF) : a.value < 2 ^ SIZE := by
  obtain ⟨h8, _, hlen, hlt⟩ := ha
  rw [two_pow_size SIZE h8, ← hlen]
  exact limbsValue_lt a.data hlt

theorem addAssign_carry_out {SIZE : Nat} (a b : UBigInteger SIZE) (ha : a.WF) (hb : b.WF) :
    (addAssign a b).value + specAddCarry a.data b.data (SIZE / 8) * 2 ^ SIZE
      = a.value + b.value := by
  obtain ⟨h8, h0, hlen, hlt⟩ := ha
  obtain ⟨_, _, _, hc, _, _, hv⟩ := addLoop_inv a.data b.data (SIZE / 8) hlen hlt hb.2.2.2
  rw [List.take_of_length_le (by rw [hb.2.2.1])] at hv
  rw [two_pow_size SIZE h8, ← hc]
  exact hv

theorem preInc_mod {SIZE : Nat} (a : UBigInteger SIZE) (ha : a.WF) :
    (preInc a).value = (a.value + 1) % 2 ^ SIZE := by
  have hw := value_lt _ (preInc_WF a ha)
  obtain ⟨h8, h0, hlen, hlt⟩ := ha
  obtain ⟨_, _, c, _, hv⟩ := incLoop_spec (SIZE / 8) 0 a.data (by omega) hlt
  simp only [Nat.zero_add, pow_zero] at hv
  rw [← two_pow_size SIZE h8] at hv
  exact eq_mod_of_add_mul _ c _ _ hw hv

theorem neg_mod {SIZE : Nat} (a : UBigInteger SIZE) (ha : a.WF) :
    (neg a).WF ∧ (neg a).value = (2 ^ SIZE - a.value) % 2 ^ SIZE := by
  have hlt0 := value_lt a ha
  obtain ⟨h8, h0, hlen, hlt⟩ := ha
  obtain ⟨hl, hl2, _, hv⟩ := negLoop_inv a.data (SIZE / 8) hlen hlt
  rw [List.take_of_length_le (by omega), ← two_pow_size SIZE h8] at hv
  have hwf : (⟨(List.range (SIZE / 8)).foldl
      (fun d i => d.set i (255 - a.data.getD i 0)) a.data⟩ : UBigInteger SIZE).WF :=
    ⟨h8, h0, hl, hl2⟩
  refine ⟨preInc_WF _ hwf, ?_⟩
  have h1 := preInc_mod _ hwf
  simp only [neg]
  rw [h1]
  congr 1
  simp only [value] at hlt0 ⊢
  omega

theorem divAssignResult_ok_zero {SIZE : Nat} (a b : UBigInteger SIZE) (r : Returned SIZE)
    (hb : b.data.length = SIZE / 8) (h : divAssignResult a b = .ok r) :
    r = .localResult (zero SIZE) := by
  by_cases hS : 4 ≤ SIZE / 8
  · rw [divAssignResult_wide a b hb hS] at h
    split at h
    · exact (Except.ok.inj h).symm
    · split at h <;> simp at h
  · rw [divAssignResult_narrow a b (by omega)] at h
    simp at h

theorem limbsValue_inj (l1 : List Nat) : ∀ (l2 : List Nat), l1.length = l2.length →
    (∀ x ∈ l1, x < 256) → (∀ x ∈ l2, x < 256) → limbsValue l1 = limbsValue l2 → l1 = l2 := by
  induction l1 with
  | nil =>
    intro l2 hlen _ _ _
    cases l2 with
    | nil => rfl
    | cons y ys => simp at hlen
  | cons x xs ih =>
    intro l2 hlen h1 h2 hv
    cases l2 with
    | nil => simp at hlen
    | cons y ys =>
      have hx : x < 256 := h1 x (List.mem_cons_self _ _)
      have hy : y < 256 := h2 y (List.mem_cons_self _ _)
      simp only [limbsValue] at hv
      have hxy : x = y := by omega
      have hvs : limbsValue xs = limbsValue ys := by omega
      have hrec := ih ys (by simpa using hlen) (fun z hz => h1 z (List.mem_cons_of_mem _ hz))
        (fun z hz => h2 z (List.mem_cons_of_mem _ hz)) hvs
      rw [hxy, hrec]

theorem value_inj {SIZE : Nat} (a b : UBigInteger SIZE) (ha : a.WF) (hb : b.WF)
    (h : a.value = b.value) : a = b := by
  have hd : a.data = b.data :=
    limbsValue_inj a.data b.data (by rw [ha.2.2.1, hb.2.2.1]) ha.2.2.2 hb.2.2.2 h
  cases a; cases b; simp only at hd; rw [hd]

theorem eq_replicate_of_getD (l : List Nat) (L v : Nat) (hlen : l.length = L)
    (h : ∀ j, j < L → l.getD j 0 = v) : l = List.replicate L v := by
  apply List.ext_getElem
  · simp [hlen]
  · intro n h1 h2
    have := h n (by omega)
    rw [List.getD_eq_getElem _ _ h1] at this
    simp [this]

theorem subLoop_self (a : List Nat) (L : Nat) (hlen : a.length = L)
    (ha : ∀ x ∈ a, x < 256) :
    ((List.range L).foldl (subStep a) (0, a)).2 = List.replicate L 0 := by
  have key := foldl_range_induction (subStep a)
    (fun k st => st.1 = 0 ∧ st.2.length = L ∧ (∀ j, j < k → st.2.getD j 0 = 0) ∧
      (∀ j, k ≤ j → st.2.getD j 0 = a.getD j 0)) (0, a) L
    ⟨rfl, hlen, fun j hj => by omega, fun _ _ => rfl⟩
    (by
      intro k st hk h
      obtain ⟨hc, hl, hdone, hrest⟩ := h
      have hak : a.getD k 0 < 256 := getD_lt a ha k
      have hn : ((st.1 + st.2.getD k 0) % 2 ^ 64 + 2 ^ 64 - a.getD k 0) % 2 ^ 64 = 0 := by
        rw [hc, hrest k (le_refl k)]
        have : (2:Nat) ^ 64 = 18446744073709551616 := by norm_num
        omega
      simp only [subStep, hn, land_BASE, shr8]
      refine ⟨by norm_num, by simp [hl], ?_, ?_⟩
      · intro j hj
        by_cases hjk : j = k
        · subst hjk; rw [getD_set_eq _ _ _ (by omega)]
        · rw [getD_set_ne _ _ _ _ (fun h => hjk h.symm)]; exact hdone j (by omega)
      · intro j hj
        rw [getD_set_ne _ _ _ _ (by omega)]; exact hrest j (by omega))
  exact eq_replicate_of_getD _ L 0 key.2.1 key.2.2.1

theorem limbsValue_take_lt (l : List Nat) (h : ∀ x ∈ l, x < 256) (i : Nat) :
    limbsValue (l.take i) < 256 ^ i := by
  have h1 := limbsValue_lt (l.take i) (fun x hx => h x (List.mem_of_mem_take hx))
  have h2 : (256:Nat) ^ (l.take i).length ≤ 256 ^ i :=
    Nat.pow_le_pow_right (by norm_num) (by simp)
  omega

theorem compareLoop_cons (x y : Nat) (xs ys : List Nat)
    (hx : ∀ z ∈ xs, z < 256) (hy : ∀ z ∈ ys, z < 256) (i : Nat) :
    compareLoop (x :: xs) (y :: ys) i =
      if limbsValue (xs.take i) < limbsValue (ys.take i) then -1
      else if limbsValue (xs.take i) > limbsValue (ys.take i) then 1 else 0 := by
  induction i with
  | zero => simp [compareLoop, limbsValue]
  | succ i ih =>
    have ha := limbsValue_take_lt xs hx i
    have hb := limbsValue_take_lt ys hy i
    simp only [compareLoop, List.getD_cons_succ, limbsValue_take_succ, ih]
    rcases Nat.lt_trichotomy (xs.getD i 0) (ys.getD i 0) with h | h | h
    · have : (xs.getD i 0 + 1) * 256 ^ i ≤ ys.getD i 0 * 256 ^ i :=
        Nat.mul_le_mul_right _ h
      rw [Nat.add_mul] at this
      split_ifs <;> first | rfl | omega
    · rw [h]
      split_ifs <;> first | rfl | omega
    · have : (ys.getD i 0 + 1) * 256 ^ i ≤ xs.getD i 0 * 256 ^ i :=
        Nat.mul_le_mul_right _ h
      rw [Nat.add_mul] at this
      split_ifs <;> first | rfl | omega

theorem compareTo_eq_cmp {SIZE : Nat} (a b : UBigInteger SIZE) (ha : a.WF) (hb : b.WF) :
    compareTo a b =
      if a.value / 256 < b.value / 256 then -1
      else if a.value / 256 > b.value / 256 then 1 else 0 := by
  obtain ⟨h8, h0, hla, hlta⟩ := ha
  obtain ⟨_, _, hlb, hltb⟩ := hb
  cases a with
  | mk da =>
  cases b with
  | mk db =>
    simp only at hla hlb hlta hltb
    cases da with
    | nil => simp at hla; omega
    | cons x xs =>
      cases db with
      | nil => simp at hlb; omega
      | cons y ys =>
        have hx : x < 256 := hlta x (List.mem_cons_self _ _)
        have hy : y < 256 := hltb y (List.mem_cons_self _ _)
        have hxs : ∀ z ∈ xs, z < 256 := fun z hz => hlta z (List.mem_cons_of_mem _ hz)
        have hys : ∀ z ∈ ys, z < 256 := fun z hz => hltb z (List.mem_cons_of_mem _ hz)
        simp only [List.length_cons] at hla hlb
        simp only [compareTo, value, limbsValue]
        rw [compareLoop_cons x y xs ys hxs hys]
        have t1 : xs.take (SIZE / 8 - 1) = xs := List.take_of_length_le (by omega)
        have t2 : ys.take (SIZE / 8 - 1) = ys := List.take_of_length_le (by omega)
        have e1 : (x + 256 * limbsValue xs) / 256 = limbsValue xs := by omega
        have e2 : (y + 256 * limbsValue ys) / 256 = limbsValue ys := by omega
        rw [t1, t2]
        simp only [e1, e2]

theorem limbsValue_append_singleton (l : List Nat) (x : Nat) :
    limbsValue (l ++ [x]) = limbsValue l + x * 256 ^ l.length := by
  induction l with
  | nil => simp [limbsValue]
  | cons y ys ih =>
    show limbsValue (y :: (ys ++ [x])) = _
    simp only [limbsValue, ih, List.length_cons, pow_succ]
    ring

theorem limbsValue_init (valSize value : Nat) (L : Nat) :
    limbsValue ((List.range L).map fun i =>
      if i < valSize then (value >>> (8 * i)) % 256 else 0)
      = value % 256 ^ (min L valSize) := by
  induction L with
  | zero => simp [limbsValue, Nat.mod_one]
  | succ L ih =>
    rw [List.range_succ, List.map_append, List.map_singleton, limbsValue_append_singleton, ih]
    simp only [List.length_map, List.length_range]
    by_cases h : L < valSize
    · rw [if_pos h, Nat.min_eq_left (by omega), Nat.min_eq_left (by omega)]
      rw [Nat.shiftRight_eq_div_pow, Nat.mod_pow_succ]
      have : (2:Nat) ^ (8 * L) = 256 ^ L := by rw [pow_mul]; norm_num
      rw [this]; ring
    · rw [if_neg h, Nat.min_eq_right (by omega), Nat.min_eq_right (by omega)]
      simp

theorem init_ok (SIZE valSize value : Nat) (h : valSize ≤ SIZE / 8) :
    init SIZE valSize value = .ok ⟨(List.range (SIZE / 8)).map fun i =>
      if i < valSize then (value >>> (8 * i)) % 256 else 0⟩ := by
  simp only [init]; rw [if_pos h]

theorem init_fault (SIZE valSize value : Nat) (h : SIZE / 8 < valSize) :
    init SIZE valSize value = .error .assertCapacity := by
  simp only [init]; rw [if_neg (by omega)]

theorem getD_map_range (f : Nat → Nat) (L i : Nat) :
    ((List.range L).map f).getD i 0 = if i < L then f i else 0 := by
  by_cases h : i < L
  · rw [if_pos h, List.getD_eq_getElem _ _ (by simpa using h)]
    simp
  · rw [if_neg h, List.getD_eq_default _ _ (by simp; omega)]

theorem init_spec (SIZE valSize v : Nat) (h8 : SIZE % 8 = 0)
    (hk : 0 < valSize) (h : valSize ≤ SIZE / 8) (hv : v < 2 ^ (8 * valSize)) :
    ∃ r : UBigInteger SIZE, init SIZE valSize v = .ok r ∧ r.WF ∧ r.value = v ∧
      (∀ i, i < valSize → r.data.getD i 0 = (v / 256 ^ i) % 256) ∧
      (∀ i, valSize ≤ i → r.data.getD i 0 = 0) := by
  refine ⟨_, init_ok SIZE valSize v h, ⟨h8, by omega, by simp, ?_⟩, ?_, ?_, ?_⟩
  · intro x hx
    simp only [List.mem_map, List.mem_range] at hx
    obtain ⟨i, _, hi⟩ := hx
    rw [← hi]
    split
    · exact Nat.mod_lt _ (by norm_num)
    · norm_num
  · simp only [value]
    rw [limbsValue_init, Nat.min_eq_right h]
    have : (256:Nat) ^ valSize = 2 ^ (8 * valSize) := by rw [pow_mul]; norm_num
    rw [this]
    exact Nat.mod_eq_of_lt hv
  · intro i hi
    have : (2:Nat) ^ (8 * i) = 256 ^ i := by rw [pow_mul]; norm_num
    rw [getD_map_range, if_pos (by omega), if_pos hi, Nat.shiftRight_eq_div_pow, this]
  · intro i hi
    rw [getD_map_range]
    split
    · rw [if_neg (by omega)]
    · rfl

theorem subInv_step (a b : List Nat) (L k : Nat) (st : Nat × List Nat)
    (ha : ∀ x ∈ a, x < 256) (hb : ∀ x ∈ b, x < 256)
    (hk : k < L) (hL : L ≤ 8) (h : SubInv a b L k st) :
    SubInv a b L (k + 1) (subStep b st k) := by
  obtain ⟨hlen, hlt, hrest, J, β, hJ, hβ, hdiv, hJle, hJ0, hval⟩ := h
  have hak : a.getD k 0 < 256 := getD_lt a ha k
  have hbk : b.getD k 0 < 256 := getD_lt b hb k
  have hdk : st.2.getD k 0 = a.getD k 0 := hrest k (le_refl k)
  have hkl : k < st.2.length := by omega
  obtain ⟨m, hm⟩ := hdiv
  have hp : (256:Nat) ^ (8 - k) = 256 * 256 ^ (7 - k) := by
    rw [show 8 - k = (7 - k) + 1 by omega, pow_succ]; ring
  have hJ1 : J = 256 * (256 ^ (7 - k) * m) := by rw [hm, hp]; ring
  have hd1 : (256:Nat) ^ (8 - (k + 1)) ∣ 256 ^ (7 - k) * m := by
    rw [show 8 - (k + 1) = 7 - k by omega]; exact Dvd.intro _ rfl
  generalize 256 ^ (7 - k) * m = J1 at hJ1 hd1
  have h64 : (2:Nat) ^ 64 = 18446744073709551616 := by norm_num
  have h56 : (2:Nat) ^ 56 = 72057594037927936 := by norm_num
  simp only [subStep, land_BASE, shr8, hdk]
  generalize hn : ((st.1 + a.getD k 0) % 2 ^ 64 + 2 ^ 64 - b.getD k 0) % 2 ^ 64 = n
  have hset := limbsValue_set st.2 k (n % 256) hkl
  rw [hdk] at hset
  have finish : ∀ β', n % 256 + b.getD k 0 + β = a.getD k 0 + 256 * β' →
      limbsValue (st.2.set k (n % 256)) + limbsValue (b.take (k + 1))
        = limbsValue a + β' * 256 ^ (k + 1) := by
    intro β' key
    have hmul : (n % 256 + b.getD k 0 + β) * 256 ^ k = (a.getD k 0 + 256 * β') * 256 ^ k := by
      rw [key]
    rw [limbsValue_take_succ, pow_succ]
    linarith [hset, hval, hmul]
  refine ⟨by simp [hlen], mem_set_lt _ _ _ (Nat.mod_lt _ (by norm_num)) hlt, ?_, ?_⟩
  · intro j hj
    rw [getD_set_ne _ _ _ _ (by omega)]
    exact hrest j (by omega)
  · by_cases hz : J1 = 0
    · have hβ0 : β = 0 := hJ0 (by omega)
      by_cases hge : b.getD k 0 ≤ a.getD k 0
      · exact ⟨0, 0, by omega, by omega, dvd_zero _, by omega, fun _ => rfl,
          finish 0 (by omega)⟩
      · refine ⟨2 ^ 56, 1, by omega, le_refl 1, ?_, le_refl _, fun h => by omega,
          finish 1 (by omega)⟩
        rw [show (2:Nat) ^ 56 = 256 ^ 7 by norm_num]
        exact pow_dvd_pow 256 (by omega)
    · by_cases hlt2 : a.getD k 0 < b.getD k 0 + β
      · exact ⟨J1, 1, by omega, le_refl 1, hd1, by omega, fun h => absurd h hz,
          finish 1 (by omega)⟩
      · exact ⟨J1, 0, by omega, by omega, hd1, by omega, fun h => absurd h hz,
          finish 0 (by omega)⟩

theorem subLoop_inv (a b : List Nat) (L : Nat) (hL : L ≤ 8) (hlen : a.length = L)
    (ha : ∀ x ∈ a, x < 256) (hb : ∀ x ∈ b, x < 256) :
    SubInv a b L L ((List.range L).foldl (subStep b) (0, a)) := by
  apply foldl_range_induction (subStep b) (SubInv a b L) (0, a) L
  · exact ⟨hlen, ha, fun _ _ => rfl, 0, 0, rfl, by omega, dvd_zero _, by omega,
      fun _ => rfl, by simp [limbsValue]⟩
  · intro k s hk hs
    exact subInv_step a b L k s ha hb hk hL hs

theorem subAssign_WF_le64 {SIZE : Nat} (a b : UBigInteger SIZE) (ha : a.WF) (hb : b.WF)
    (hS : SIZE ≤ 64) : (subAssign a b).WF := by
  obtain ⟨h8, h0, hlen, hlt⟩ := ha
  obtain ⟨hl, hl2, _⟩ := subLoop_inv a.data b.data (SIZE / 8) (by omega) hlen hlt hb.2.2.2
  exact ⟨h8, h0, hl, hl2⟩

theorem subAssign_value_le64 {SIZE : Nat} (a b : UBigInteger SIZE) (ha : a.WF) (hb : b.WF)
    (hS : SIZE ≤ 64) :
    ((subAssign a b).value : Int) = ((a.value : Int) - b.value) % 2 ^ SIZE := by
  have hw := value_lt _ (subAssign_WF_le64 a b ha hb hS)
  obtain ⟨h8, h0, hlen, hlt⟩ := ha
  obtain ⟨_, _, _, J, β, _, _, _, _, _, hv⟩ :=
    subLoop_inv a.data b.data (SIZE / 8) (by omega) hlen hlt hb.2.2.2
  rw [List.take_of_length_le (by rw [hb.2.2.1]), ← two_pow_size SIZE h8] at hv
  have hv2 : ((subAssign a b).value : Int) + (-(β : Int)) * 2 ^ SIZE
      = (a.value : Int) - b.value := by
    have : ((limbsValue ((List.range (SIZE / 8)).foldl (subStep b.data) (0, a.data)).2
        + limbsValue b.data : Nat) : Int) = ((limbsValue a.data + β * 2 ^ SIZE : Nat) : Int) := by
      rw [hv]
    push_cast at this
    simp only [value, subAssign]
    linarith
  rw [← hv2, Int.add_mul_emod_self]
  have hlt2 : ((subAssign a b).value : Int) < 2 ^ SIZE := by exact_mod_cast hw
  rw [Int.emod_eq_of_lt (by positivity) hlt2]

theorem hexDigit_mem (n : Nat) : hexDigit n ∈ hexDigits := by
  by_cases h : n < 16
  · interval_cases n <;> decide
  · have : hexDigit n = '0' := by
      simp only [hexDigit]
      rw [List.getD_eq_default _ _ (by simp [hexDigits]; omega)]
    rw [this]; decide

theorem indexOf_hexDigit (n : Nat) (h : n < 16) : hexDigits.indexOf (hexDigit n) = n := by
  interval_cases n <;> decide

theorem HexStr_append (xs ys : List Nat) : HexStr (xs ++ ys) = HexStr xs ++ HexStr ys := by
  induction xs with
  | nil => rfl
  | cons x xs ih => simp [HexStr, ih]

theorem HexStr_mem (l : List Nat) : ∀ c ∈ HexStr l, c ∈ hexDigits := by
  induction l with
  | nil => intro c hc; simp [HexStr] at hc
  | cons x xs ih =>
    intro c hc
    simp only [HexStr, List.mem_cons] at hc
    rcases hc with h | h | h
    · rw [h]; exact hexDigit_mem _
    · rw [h]; exact hexDigit_mem _
    · exact ih c h

theorem hexValue_HexStr_reverse (l : List Nat) (h : ∀ x ∈ l, x < 256) :
    hexValue (HexStr l.reverse) = limbsValue l := by
  induction l with
  | nil => rfl
  | cons x xs ih =>
    have hx : x < 256 := h x (List.mem_cons_self _ _)
    have hxs := ih (fun z hz => h z (List.mem_cons_of_mem _ hz))
    simp only [hexValue] at hxs ⊢
    rw [List.reverse_cons, HexStr_append, List.foldl_append, hxs]
    simp only [HexStr, List.foldl_cons, List.foldl_nil, limbsValue]
    rw [indexOf_hexDigit _ (by omega), indexOf_hexDigit _ (by omega)]
    omega

theorem hexValue_cons_zero (s : List Char) : hexValue ('0' :: s) = hexValue s := by
  simp only [hexValue, List.foldl_cons]
  rfl

theorem removeZeros_spec (s : List Char) :
    hexValue (removeZeros s) = hexValue s ∧ (s ≠ [] → removeZeros s ≠ []) ∧
    (∀ c ∈ removeZeros s, c ∈ s) ∧
    ((removeZeros s).head? = some '0' → removeZeros s = ['0']) := by
  induction s with
  | nil => simp [removeZeros]
  | cons c t ih =>
    cases t with
    | nil =>
      simp only [removeZeros]
      refine ⟨trivial, fun _ => by simp, fun _ h => h, fun h => ?_⟩
      simp only [List.head?_cons, Option.some.injEq] at h
      rw [h]
    | cons d rest =>
      simp only [removeZeros]
      by_cases hc : c = '0'
      · rw [if_pos hc]
        obtain ⟨h1, h2, h3, h4⟩ := ih
        refine ⟨?_, fun _ => h2 (by simp), fun x hx => List.mem_cons_of_mem _ (h3 x hx), h4⟩
        rw [h1, hc, hexValue_cons_zero]
      · rw [if_neg hc]
        refine ⟨rfl, fun _ => by simp, fun _ h => h, fun h => ?_⟩
        simp only [List.head?_cons, Option.some.injEq] at h
        exact absurd h hc

theorem HexStr_replicate_zero (n : Nat) :
    HexStr (List.replicate n 0) = List.replicate (2 * n) '0' := by
  induction n with
  | zero => rfl
  | succ n ih =>
    rw [List.replicate_succ, HexStr, ih, show 2 * (n + 1) = (2 * n + 1) + 1 by ring,
      List.replicate_succ, List.replicate_succ]
    rfl

theorem removeZeros_zeros_append (n : Nat) (c d : Char) (rest : List Char) (hc : c ≠ '0') :
    removeZeros (List.replicate n '0' ++ c :: d :: rest) = c :: d :: rest := by
  induction n with
  | zero => simp [removeZeros, hc]
  | succ n ih =>
    rw [List.replicate_succ, List.cons_append]
    cases hn : List.replicate n '0' ++ c :: d :: rest with
    | nil => simp at hn
    | cons y ys =>
      rw [removeZeros, if_pos rfl, ← hn, ih]

theorem removeZeros_zeros (n : Nat) : removeZeros (List.replicate (n + 1) '0') = ['0'] := by
  induction n with
  | zero => rfl
  | succ n ih =>
    rw [List.replicate_succ]
    cases hn : List.replicate (n + 1) '0' with
    | nil => simp at hn
    | cons y ys =>
      rw [removeZeros, if_pos rfl, ← hn, ih]

theorem divAssignResult_scan_fault {SIZE : Nat} (a b : UBigInteger SIZE) (hb : b.WF)
    (hS : 32 ≤ SIZE) (hnz : b.value ≠ 0) (hgt : gt b a = false) :
    divAssignResult a b = .error .outOfRange := by
  have heq : eq b (zero SIZE) = false := by
    simp only [eq, zero, beq_eq_false_iff_ne, ne_eq]
    intro hd
    apply hnz
    simp only [value, hd, limbsValue_replicate_zero]
  rw [divAssignResult_wide a b hb.2.2.1 (by omega), hgt, heq]
  rfl

theorem andThen_self {SIZE : Nat} (s t : DivStep SIZE)
    (hs : ∀ f, (s f).1.self = f.self) (ht : ∀ f, (t f).1.self = f.self) :
    ∀ f, ((s.andThen t) f).1.self = f.self := by
  intro f
  have h1 := hs f
  simp only [DivStep.andThen]
  cases h : s f with
  | mk f1 o =>
    rw [h] at h1
    cases o with
    | none => simp only; rw [ht f1]; exact h1
    | some out => exact h1

theorem andThen_ends {SIZE : Nat} (s t : DivStep SIZE) (ht : ∀ f, (t f).2 ≠ none) :
    ∀ f, ((s.andThen t) f).2 ≠ none := by
  intro f
  simp only [DivStep.andThen]
  cases h : s f with
  | mk f1 o =>
    cases o with
    | none => exact ht f1
    | some out => simp

theorem declareLocals_self {SIZE : Nat} (assertions : Bool) (f : DivFrame SIZE) :
    (declareLocals assertions f).1.self = f.self := by
  simp only [declareLocals]
  split
  · rfl
  · split <;> rfl

theorem fastPath_self {SIZE : Nat} (f : DivFrame SIZE) : (fastPath f).1.self = f.self := by
  simp only [fastPath]
  split <;> rfl

theorem zeroCheck_self {SIZE : Nat} (assertions : Bool) (f : DivFrame SIZE) :
    (zeroCheck assertions f).1.self = f.self := by
  simp only [zeroCheck]
  split
  · rfl
  · split <;> rfl

theorem normalizeScan_self {SIZE : Nat} (oob : Nat → Nat) (f : DivFrame SIZE) :
    (normalizeScan oob f).1.self = f.self := rfl

theorem scaleOperands_self {SIZE : Nat} (assertions : Bool) (f : DivFrame SIZE) :
    (scaleOperands assertions f).1.self = f.self := by
  simp only [scaleOperands]
  split
  · rfl
  · split
    · split
      · rfl
      · split <;> rfl
    · rfl

theorem quotientDigits_self {SIZE : Nat} (assertions : Bool) (oob : Nat → Nat)
    (f : DivFrame SIZE) : (quotientDigits assertions oob f).1.self = f.self := by
  simp only [quotientDigits]
  split <;> rfl

theorem returnResult_self {SIZE : Nat} (f : DivFrame SIZE) :
    (returnResult f).1.self = f.self := rfl

theorem divAssignBody_self {SIZE : Nat} (assertions : Bool) (oob : Nat → Nat) :
    ∀ f : DivFrame SIZE, (divAssignBody assertions oob f).1.self = f.self := by
  unfold divAssignBody
  apply andThen_self _ _ (declareLocals_self assertions)
  apply andThen_self _ _ fastPath_self
  apply andThen_self _ _ (zeroCheck_self assertions)
  apply andThen_self _ _ (normalizeScan_self oob)
  apply andThen_self _ _ (scaleOperands_self assertions)
  apply andThen_self _ _ (quotientDigits_self assertions oob)
  exact returnResult_self

theorem divAssignBody_ends {SIZE : Nat} (assertions : Bool) (oob : Nat → Nat) :
    ∀ f : DivFrame SIZE, (divAssignBody assertions oob f).2 ≠ none := by
  unfold divAssignBody
  apply andThen_ends
  apply andThen_ends
  apply andThen_ends
  apply andThen_ends
  apply andThen_ends
  apply andThen_ends
  intro f
  simp [returnResult]

theorem divAssignRun_agrees {SIZE : Nat} (oob : Nat → Nat) (a b : UBigInteger SIZE)
    (hb : b.data.length = SIZE / 8) (h : divAssignResult a b ≠ .error .outOfRange) :
    (divAssignRun true oob a b).2 = some (divAssignResult a b) := by
  have hctor : ofSignedIn true SIZE 4 0 = ofInt32 SIZE 0 := rfl
  by_cases hS : 4 ≤ SIZE / 8
  · rw [divAssignResult_wide a b hb hS] at h ⊢
    have hz := ofInt32_zero SIZE hS
    by_cases h1 : gt b a = true
    · simp [divAssignRun, divAssignBody, DivStep.andThen, declareLocals, fastPath,
        enterFrame, hctor, hz, h1]
    · by_cases h2 : eq b (zero SIZE) = true
      · simp [divAssignRun, divAssignBody, DivStep.andThen, declareLocals, fastPath,
          zeroCheck, enterFrame, hctor, hz, h1, h2]
      · simp [h1, h2] at h
  · rw [divAssignResult_narrow a b (by omega)]
    have hz := ofInt32_zero_narrow SIZE (by omega)
    simp [divAssignRun, divAssignBody, DivStep.andThen, declareLocals, enterFrame, hctor, hz]

/-- With assertions compiled in: at every width of at least 32 bits, `a /= b` with
a zero-valued divisor raises the division-by-zero error; with a nonzero divisor
that error is not raised, at any width. -/
theorem divAssign_zero_divisor (SIZE : Nat) (a b : UBigInteger SIZE) (hb : b.WF) :
    (32 ≤ SIZE → b.value = 0 → divAssign a b = (a, .error .arithError)) ∧
    (b.value ≠ 0 → (divAssign a b).2 ≠ .error .arithError) ∧
    (divAssign a b).1 = a := by
  obtain ⟨h8, h0, hlen, hlt⟩ := hb
  refine ⟨fun hS hz => ?_, fun hnz => ?_, rfl⟩
  · have hdata : b.data = List.replicate (SIZE / 8) 0 := by
      rw [← hlen]; exact limbsValue_eq_zero b.data hz
    have hgt : gt b a = false := by
      have := compareLoop_zero_left b.data a.data
        (fun x hx => List.eq_of_mem_replicate (hdata ▸ hx)) (SIZE / 8 - 1)
      simp only [gt, compareTo, decide_eq_false_iff_not]
      omega
    have heq : eq b (zero SIZE) = true := by
      simp [eq, zero, hdata]
    simp only [divAssign]
    rw [divAssignResult_wide a b hlen (by omega), hgt, heq]
    rfl
  · simp only [divAssign]
    by_cases hS : 4 ≤ SIZE / 8
    · rw [divAssignResult_wide a b hlen hS]
      have heq : eq b (zero SIZE) = false := by
        simp only [eq, zero, beq_eq_false_iff_ne, ne_eq]
        intro hd
        apply hnz
        simp only [value, hd, limbsValue_replicate_zero]
      rw [heq]
      split <;> simp
    · rw [divAssignResult_narrow a b (by omega)]
      simp

/-- With assertions compiled in and an out-of-range read taken as a fault, the
outcome of `a /= b` path by path for a well-formed divisor: the capacity
assertion of the literal `0` below 32 bits, the fast path, the division-by-zero
error, and the first read of the normalisation loop. -/
theorem divAssign_outcomes (SIZE : Nat) (a b : UBigInteger SIZE) (hb : b.WF) :
    (SIZE < 32 → (divAssign a b).2 = .error .assertCapacity) ∧
    (32 ≤ SIZE → gt b a = true →
      (divAssign a b).2 = .ok (.localResult (zero SIZE))) ∧
    (32 ≤ SIZE → gt b a = false → b.value = 0 →
      (divAssign a b).2 = .error .arithError) ∧
    (32 ≤ SIZE → gt b a = false → b.value ≠ 0 →
      (divAssign a b).2 = .error .outOfRange) := by
  refine ⟨fun hS => ?_, fun hS hgt => ?_, fun hS hgt hz => ?_, fun hS hgt hnz => ?_⟩
  · simp only [divAssign]
    rw [divAssignResult_narrow a b (by omega)]
  · simp only [divAssign]
    rw [divAssignResult_wide a b hb.2.2.1 (by omega), hgt]
    rfl
  · have hdata : b.data = List.replicate (SIZE / 8) 0 := by
      rw [← hb.2.2.1]; exact limbsValue_eq_zero b.data hz
    have heq : eq b (zero SIZE) = true := by
      simp [eq, zero, hdata]
    simp only [divAssign]
    rw [divAssignResult_wide a b hb.2.2.1 (by omega), hgt, heq]
    rfl
  · simp only [divAssign]
    rw [divAssignResult_scan_fault a b hb hS hnz hgt]

/-- With assertions compiled in: for a native signed source of `k` bytes, `k` one
of 1, 2, 4, 8, holding `v`, and a limb count of at least `k`, the constructor
fails exactly when `v` is negative, with the failed sign assertion; when `v` is
not negative it yields what the unsigned constructor yields for `v`. -/
theorem ofSigned_checks_sign (SIZE k : Nat) (v : Int) (h8 : SIZE % 8 = 0)
    (hk : k = 1 ∨ k = 2 ∨ k = 4 ∨ k = 8) (hS : k ≤ SIZE / 8)
    (hhi : v < 2 ^ (8 * k - 1)) :
    (ofInt8 SIZE v = ofSigned SIZE 1 v ∧ ofInt16 SIZE v = ofSigned SIZE 2 v ∧
      ofInt32 SIZE v = ofSigned SIZE 4 v ∧ ofInt64 SIZE v = ofSigned SIZE 8 v) ∧
    ((∃ e, ofSigned SIZE k v = .error e) ↔ v < 0) ∧
    (v < 0 → ofSigned SIZE k v = .error .assertPositive) ∧
    (0 ≤ v → ofSigned SIZE k v = init SIZE k v.toNat ∧
      ∃ r : UBigInteger SIZE, ofSigned SIZE k v = .ok r ∧ (r.value : Int) = v) := by
  have hneg : v < 0 → ofSigned SIZE k v = .error .assertPositive := by
    intro h
    simp only [ofSigned]; rw [if_neg (by omega)]
  have hpow : (2:Int) ^ (8 * k - 1) ≤ 2 ^ (8 * k) :=
    pow_le_pow_right₀ (by norm_num) (by omega)
  have hpos : 0 ≤ v → ofSigned SIZE k v = init SIZE k v.toNat ∧
      ∃ r : UBigInteger SIZE, ofSigned SIZE k v = .ok r ∧ (r.value : Int) = v := by
    intro h
    have hmod : v % 2 ^ (8 * k) = v := Int.emod_eq_of_lt h (by omega)
    have he : ofSigned SIZE k v = init SIZE k v.toNat := by
      simp only [ofSigned]; rw [if_pos h, hmod]
    have hnat : v.toNat < 2 ^ (8 * k) := by
      have h1 : (v.toNat : Int) = v := Int.toNat_of_nonneg h
      have h2 : (v.toNat : Int) < 2 ^ (8 * k) := by omega
      exact_mod_cast h2
    obtain ⟨r, h1, _, h3, _⟩ := init_spec SIZE k v.toNat h8 (by omega) hS hnat
    refine ⟨he, r, by rw [he, h1], ?_⟩
    rw [h3]; exact Int.toNat_of_nonneg h
  refine ⟨⟨rfl, rfl, rfl, rfl⟩, ⟨fun ⟨e, he⟩ => ?_, fun h => ⟨_, hneg h⟩⟩, hneg, hpos⟩
  by_contra hnn
  obtain ⟨_, r, hr, _⟩ := hpos (by omega)
  rw [hr] at he
  simp at he

end nnoops

/-! ## The claims -/

namespace nnoops

open UBigInteger

/-- C1: for every width and every pair of well-formed values `a`, `b`, the product
`a * b`, and the receiver after `a *= b`, has numeric value
`(value a * value b) mod 2 ^ SIZE`. -/
theorem mulAssign_value (SIZE : Nat) (a b : UBigInteger SIZE) (ha : a.WF) (hb : b.WF) :
    (mul a b).value = (a.value * b.value) % 2 ^ SIZE ∧
    (mulAssign a b).value = (a.value * b.value) % 2 ^ SIZE := by
  have hw := value_lt _ (mulAssign_WF a b ha hb)
  obtain ⟨h8, h0, hlen, hlt⟩ := ha
  obtain ⟨_, _, c, hv⟩ := mulOuter_inv a.data b.data (SIZE / 8) hlt hb.2.2.2
  rw [List.take_of_length_le (by omega), ← two_pow_size SIZE h8] at hv
  have h := eq_mod_of_add_mul _ c _ _ hw hv
  exact ⟨h, h⟩

/-- Witness of C1 at the 16-bit width: `0xffff * 0x0103`. -/
theorem mulAssign_value_witness :
    (mul (⟨[255, 255]⟩ : UBigInteger 16) ⟨[3, 1]⟩).value = (65535 * 259) % 2 ^ 16 ∧
    (mulAssign (⟨[255, 255]⟩ : UBigInteger 16) ⟨[3, 1]⟩).value = (65535 * 259) % 2 ^ 16 :=
  mulAssign_value 16 ⟨[255, 255]⟩ ⟨[3, 1]⟩ (by decide) (by decide)

/-- C2: for every width and every pair of well-formed values `a`, `b`, the sum
`a + b`, and the receiver after `a += b`, has numeric value
`(value a + value b) mod 2 ^ SIZE`; limb `i` of the result is the low byte of
`carry + a_limb + b_limb` for the carry chain of the specification, and the carry
out of the top limb is what the result lacks. -/
theorem addAssign_value (SIZE : Nat) (a b : UBigInteger SIZE) (ha : a.WF) (hb : b.WF) :
    (add a b).value = (a.value + b.value) % 2 ^ SIZE ∧
    (addAssign a b).value = (a.value + b.value) % 2 ^ SIZE ∧
    (∀ i, i < SIZE / 8 → (addAssign a b).data.getD i 0
      = (specAddCarry a.data b.data i + a.data.getD i 0 + b.data.getD i 0) % 256) ∧
    (addAssign a b).value + specAddCarry a.data b.data (SIZE / 8) * 2 ^ SIZE
      = a.value + b.value := by
  have hw := value_lt _ (addAssign_WF a b ha hb)
  have hv := addAssign_carry_out a b ha hb
  have h := eq_mod_of_add_mul _ _ _ _ hw hv
  refine ⟨h, h, ?_, hv⟩
  obtain ⟨_, _, _, _, _, hdone, _⟩ :=
    addLoop_inv a.data b.data (SIZE / 8) ha.2.2.1 ha.2.2.2 hb.2.2.2
  exact hdone

/-- Witness of C2 at the 16-bit width: `0xffff + 0x0001` wraps to zero. -/
theorem addAssign_value_witness :
    (add (⟨[255, 255]⟩ : UBigInteger 16) ⟨[1, 0]⟩).value = (65535 + 1) % 2 ^ 16 :=
  (addAssign_value 16 ⟨[255, 255]⟩ ⟨[1, 0]⟩ (by decide) (by decide)).1

/-- C3, at the failing input: in the 128-bit width with `a = 255` and `b = 1`,
`(a + b) - b` has limb 8 equal to 1, so it is not `a`. -/
theorem sub_add_128_differs :
    (⟨[255, 0, 0, 0, 0, 0, 0, 0, 0, 0, 0, 0, 0, 0, 0, 0]⟩ : UBigInteger 128).WF ∧
    (⟨[1, 0, 0, 0, 0, 0, 0, 0, 0, 0, 0, 0, 0, 0, 0, 0]⟩ : UBigInteger 128).WF ∧
    (sub (add (⟨[255, 0, 0, 0, 0, 0, 0, 0, 0, 0, 0, 0, 0, 0, 0, 0]⟩ : UBigInteger 128)
        ⟨[1, 0, 0, 0, 0, 0, 0, 0, 0, 0, 0, 0, 0, 0, 0, 0]⟩)
        ⟨[1, 0, 0, 0, 0, 0, 0, 0, 0, 0, 0, 0, 0, 0, 0, 0]⟩).data
      = [255, 0, 0, 0, 0, 0, 0, 0, 1, 0, 0, 0, 0, 0, 0, 0] ∧
    eq (sub (add (⟨[255, 0, 0, 0, 0, 0, 0, 0, 0, 0, 0, 0, 0, 0, 0, 0]⟩ : UBigInteger 128)
        ⟨[1, 0, 0, 0, 0, 0, 0, 0, 0, 0, 0, 0, 0, 0, 0, 0]⟩)
        ⟨[1, 0, 0, 0, 0, 0, 0, 0, 0, 0, 0, 0, 0, 0, 0, 0]⟩)
      ⟨[255, 0, 0, 0, 0, 0, 0, 0, 0, 0, 0, 0, 0, 0, 0, 0]⟩ = false := by
  decide

/-- C4, at the failing input: in the 64-bit width `300 /= 7` does not produce 42;
the normalisation loop reads limb `SIZE - 1 = 63` of an 8-limb array. -/
theorem divAssign_300_7 :
    (⟨[44, 1, 0, 0, 0, 0, 0, 0]⟩ : UBigInteger 64).value = 300 ∧
    (⟨[7, 0, 0, 0, 0, 0, 0, 0]⟩ : UBigInteger 64).value = 7 ∧
    (divAssign (⟨[44, 1, 0, 0, 0, 0, 0, 0]⟩ : UBigInteger 64)
      ⟨[7, 0, 0, 0, 0, 0, 0, 0]⟩).2 = .error .outOfRange :=
  ⟨by decide, by decide, rfl⟩

/-- C5, at the failing input: in the 8-bit width, built with assertions compiled
in, `5 /= 0` stops at the capacity assertion of the `int32_t` constructor that
builds the literal `0` of `result = 0`, before the zero check, and raises no
division-by-zero error.  The same call built with `NDEBUG`, and the call at the
32-bit width in either build, raise it. -/
theorem divAssign_by_zero_narrow_asserts :
    (⟨[5]⟩ : UBigInteger 8).WF ∧ (⟨[0]⟩ : UBigInteger 8).WF ∧
    (⟨[0]⟩ : UBigInteger 8).value = 0 ∧
    (divAssign (⟨[5]⟩ : UBigInteger 8) ⟨[0]⟩).2 = .error .assertCapacity ∧
    (divAssign (⟨[5]⟩ : UBigInteger 8) ⟨[0]⟩).2 ≠ .error .arithError ∧
    (divAssignRun true (fun _ => 0) (⟨[5]⟩ : UBigInteger 8) ⟨[0]⟩).2
      = some (.error .assertCapacity) ∧
    (divAssignRun false (fun _ => 0) (⟨[5]⟩ : UBigInteger 8) ⟨[0]⟩).2
      = some (.error .arithError) ∧
    (divAssignRun true (fun _ => 0) (⟨[5, 0, 0, 0]⟩ : UBigInteger 32) ⟨[0, 0, 0, 0]⟩).2
      = some (.error .arithError) ∧
    (divAssignRun false (fun _ => 0) (⟨[5, 0, 0, 0]⟩ : UBigInteger 32) ⟨[0, 0, 0, 0]⟩).2
      = some (.error .arithError) :=
  ⟨by decide, by decide, by decide, rfl, by simp [divAssign, divAssignResult_narrow],
    rfl, rfl, rfl, rfl⟩

/-- C6, at the failing input: in the 64-bit width `compareTo` answers 0 for the
values 1 and 2, which differ in limb 0 only; the 2-limb example of the claim,
256 against 1, does compare greater. -/
theorem compareTo_ignores_limb_zero :
    (⟨[1, 0, 0, 0, 0, 0, 0, 0]⟩ : UBigInteger 64).value
      < (⟨[2, 0, 0, 0, 0, 0, 0, 0]⟩ : UBigInteger 64).value ∧
    compareTo (⟨[1, 0, 0, 0, 0, 0, 0, 0]⟩ : UBigInteger 64) ⟨[2, 0, 0, 0, 0, 0, 0, 0]⟩ = 0 ∧
    lt (⟨[1, 0, 0, 0, 0, 0, 0, 0]⟩ : UBigInteger 64) ⟨[2, 0, 0, 0, 0, 0, 0, 0]⟩ = false ∧
    compareTo (⟨[0, 1]⟩ : UBigInteger 16) ⟨[1, 0]⟩ = 1 := by
  decide

/-- C7, at the failing input: in the 64-bit width `1 /= 2` does not take the fast
path, since `2 > 1` is decided without limb 0, and stops in the normalisation
loop instead of producing 0. -/
theorem divAssign_1_2 :
    (⟨[1, 0, 0, 0, 0, 0, 0, 0]⟩ : UBigInteger 64).value
      < (⟨[2, 0, 0, 0, 0, 0, 0, 0]⟩ : UBigInteger 64).value ∧
    gt (⟨[2, 0, 0, 0, 0, 0, 0, 0]⟩ : UBigInteger 64) ⟨[1, 0, 0, 0, 0, 0, 0, 0]⟩ = false ∧
    (divAssign (⟨[1, 0, 0, 0, 0, 0, 0, 0]⟩ : UBigInteger 64)
      ⟨[2, 0, 0, 0, 0, 0, 0, 0]⟩).2 = .error .outOfRange :=
  ⟨by decide, by decide, rfl⟩

/-- C8: for every width and every well-formed value `a`, prefix increment leaves
the value `(value a + 1) mod 2 ^ SIZE`; on the all-`0xff` value it yields the zero
value; postfix increment returns the old value and leaves the same incremented
receiver.  The operation is a total function: it has no failing outcome. -/
theorem preInc_value (SIZE : Nat) (a : UBigInteger SIZE) (ha : a.WF) :
    (preInc a).value = (a.value + 1) % 2 ^ SIZE ∧
    (a.data = List.replicate (SIZE / 8) 0xff →
      preInc a = zero SIZE ∧ (preInc a).value = 0) ∧
    (postInc a).1 = a ∧ (postInc a).2 = preInc a ∧
    (postInc a).2.value = (a.value + 1) % 2 ^ SIZE := by
  have hv := preInc_mod a ha
  refine ⟨hv, fun hmax => ?_, rfl, rfl, hv⟩
  have hwf := preInc_WF a ha
  have h0 : (preInc a).value = 0 := by
    rw [hv, two_pow_size SIZE ha.1]
    simp only [value, hmax]
    rw [limbsValue_replicate_max, Nat.mod_self]
  refine ⟨?_, h0⟩
  have hd := limbsValue_eq_zero (preInc a).data h0
  rw [hwf.2.2.1] at hd
  cases hp : preInc a with
  | mk d => rw [hp] at hd; simp only [zero]; simpa using hd

/-- Witness of C8 at the 16-bit width: incrementing `0xffff`. -/
theorem preInc_value_witness :
    (preInc (⟨[255, 255]⟩ : UBigInteger 16)).value = (65535 + 1) % 2 ^ 16 :=
  (preInc_value 16 ⟨[255, 255]⟩ (by decide)).1

/-- C9: for every width and every well-formed value `a`, prefix decrement leaves
the value `(value a - 1) mod 2 ^ SIZE`; limb `j` is decremented (modulo 256) when
every lower limb was zero, and so underflowed to 255, and is untouched otherwise;
decrementing zero yields the all-`0xff` value. -/
theorem preDec_value (SIZE : Nat) (a : UBigInteger SIZE) (ha : a.WF) :
    ((preDec a).value : Int) = ((a.value : Int) - 1) % 2 ^ SIZE ∧
    (∀ j, j < SIZE / 8 →
      ((∀ t, t < j → a.data.getD t 0 = 0) →
        (preDec a).data.getD j 0 = (a.data.getD j 0 + 255) % 256) ∧
      ((∃ t, t < j ∧ a.data.getD t 0 ≠ 0) →
        (preDec a).data.getD j 0 = a.data.getD j 0)) ∧
    (a.value = 0 → (preDec a).data = List.replicate (SIZE / 8) 0xff) := by
  have hw := value_lt _ (preDec_WF a ha)
  have hwf := preDec_WF a ha
  obtain ⟨h8, h0, hlen, hlt⟩ := ha
  have hlimb : ∀ j, j < SIZE / 8 →
      ((∀ t, t < j → a.data.getD t 0 = 0) →
        (preDec a).data.getD j 0 = (a.data.getD j 0 + 255) % 256) ∧
      ((∃ t, t < j ∧ a.data.getD t 0 ≠ 0) →
        (preDec a).data.getD j 0 = a.data.getD j 0) := by
    intro j hj
    obtain ⟨_, h2, h3⟩ := decLoop_limb (SIZE / 8) 0 a.data (by omega) hlt j (by omega)
    refine ⟨fun hall => h2 (Nat.zero_le j) (fun t _ ht => hall t ht), fun hex => ?_⟩
    obtain ⟨t, ht, hne⟩ := hex
    exact h3 (Nat.zero_le j) ⟨t, Nat.zero_le t, ht, hne⟩
  refine ⟨?_, hlimb, fun hz => ?_⟩
  · obtain ⟨_, _, c, hc, hv⟩ := decLoop_spec (SIZE / 8) 0 a.data (by omega) hlt
    simp only [Nat.zero_add, pow_zero] at hv
    rw [← two_pow_size SIZE h8] at hv
    have hv2 : ((preDec a).value : Int) + c * (-(2 ^ SIZE : Int)) = (a.value : Int) - 1 := by
      have : ((limbsValue (decLoop (SIZE / 8) 0 a.data) + 1 : Nat) : Int)
          = ((limbsValue a.data + c * 2 ^ SIZE : Nat) : Int) := by rw [hv]
      push_cast at this
      simp only [value, preDec]
      linarith
    have hneg : (c : Int) * (-(2 ^ SIZE : Int)) = (-(c : Int)) * 2 ^ SIZE := by ring
    rw [← hv2, hneg, Int.add_mul_emod_self]
    have hlt2 : ((preDec a).value : Int) < 2 ^ SIZE := by exact_mod_cast hw
    rw [Int.emod_eq_of_lt (by positivity) hlt2]
  · have hdata : a.data = List.replicate (SIZE / 8) 0 := by
      rw [← hlen]; exact limbsValue_eq_zero a.data hz
    apply List.ext_getElem
    · simp [hwf.2.2.1]
    · intro n h1 h2
      have hn : n < SIZE / 8 := by simpa using h2
      have h := (hlimb n hn).1 (fun t _ => by rw [hdata]; simp [List.getD_eq_getElem?_getD])
      rw [List.getD_eq_getElem _ _ h1] at h
      rw [h, hdata]
      simp [List.getD_eq_getElem?_getD, hn]

/-- Witness of C9 at the 16-bit width: decrementing `0x0100` borrows through
limb 0. -/
theorem preDec_value_witness :
    ((preDec (⟨[0, 1]⟩ : UBigInteger 16)).value : Int)
      = (((⟨[0, 1]⟩ : UBigInteger 16).value : Int) - 1) % 2 ^ 16 :=
  (preDec_value 16 ⟨[0, 1]⟩ (by decide)).1

/-- C10: for every width and every well-formed value `a`, unary negation is the
additive inverse modulo `2 ^ SIZE`: `a + (-a)` is the zero value, and
`value (-a) = (2 ^ SIZE - value a) mod 2 ^ SIZE`. -/
theorem neg_additive_inverse (SIZE : Nat) (a : UBigInteger SIZE) (ha : a.WF) :
    add a (neg a) = zero SIZE ∧ eq (add a (neg a)) (zero SIZE) = true ∧
    (add a (neg a)).value = 0 ∧
    (neg a).value = (2 ^ SIZE - a.value) % 2 ^ SIZE := by
  obtain ⟨hnwf, hnv⟩ := neg_mod a ha
  have hlt := value_lt a ha
  have hwf := addAssign_WF a (neg a) ha hnwf
  have hsum := addAssign_carry_out a (neg a) ha hnwf
  have hw := value_lt _ hwf
  have hv : (add a (neg a)).value = 0 := by
    have h := eq_mod_of_add_mul _ _ _ _ hw hsum
    simp only [add]
    rw [h, hnv]
    by_cases hz : a.value = 0
    · rw [hz]; simp
    · have e : (2 ^ SIZE - a.value) % 2 ^ SIZE = 2 ^ SIZE - a.value :=
        Nat.mod_eq_of_lt (by omega)
      rw [e, show a.value + (2 ^ SIZE - a.value) = 2 ^ SIZE by omega, Nat.mod_self]
  have hd := limbsValue_eq_zero (add a (neg a)).data hv
  have hlen : (add a (neg a)).data.length = SIZE / 8 := hwf.2.2.1
  rw [hlen] at hd
  have hzero : add a (neg a) = zero SIZE := by
    cases hp : add a (neg a) with
    | mk d => rw [hp] at hd; simp only [zero]; simpa using hd
  refine ⟨hzero, ?_, hv, hnv⟩
  rw [hzero]; simp [eq]

/-- Witness of C10 at the 16-bit width: negating 5. -/
theorem neg_additive_inverse_witness :
    add (⟨[5, 0]⟩ : UBigInteger 16) (neg ⟨[5, 0]⟩) = zero 16 ∧
    (neg (⟨[5, 0]⟩ : UBigInteger 16)).value = (2 ^ 16 - 5) % 2 ^ 16 :=
  ⟨(neg_additive_inverse 16 ⟨[5, 0]⟩ (by decide)).1,
   (neg_additive_inverse 16 ⟨[5, 0]⟩ (by decide)).2.2.2⟩

/-- C11: for every width and every well-formed value `a`, `a - a` is the zero
value: every limb of the difference is zero. -/
theorem sub_self_zero (SIZE : Nat) (a : UBigInteger SIZE) (ha : a.WF) :
    sub a a = zero SIZE ∧ eq (sub a a) (zero SIZE) = true ∧
    (∀ i, i < SIZE / 8 → (sub a a).data.getD i 0 = 0) ∧ (sub a a).value = 0 := by
  have hd : (sub a a).data = List.replicate (SIZE / 8) 0 :=
    subLoop_self a.data (SIZE / 8) ha.2.2.1 ha.2.2.2
  have hz : sub a a = zero SIZE := by
    cases hp : sub a a with
    | mk d => rw [hp] at hd; simp only [zero]; simpa using hd
  refine ⟨hz, by rw [hz]; simp [eq], ?_, ?_⟩
  · intro i hi
    rw [hd]; simp [List.getD_eq_getElem?_getD, hi]
  · simp only [value, hd, limbsValue_replicate_zero]

/-- Witness of C11 at the 128-bit width, where a borrow would go wrong. -/
theorem sub_self_zero_witness :
    sub (⟨[255, 0, 0, 0, 0, 0, 0, 0, 0, 7, 0, 0, 0, 0, 0, 1]⟩ : UBigInteger 128)
      ⟨[255, 0, 0, 0, 0, 0, 0, 0, 0, 7, 0, 0, 0, 0, 0, 1]⟩ = zero 128 :=
  (sub_self_zero 128 ⟨[255, 0, 0, 0, 0, 0, 0, 0, 0, 7, 0, 0, 0, 0, 0, 1]⟩ (by decide)).1

/-- C12: for every width and every well-formed value `a`, negation is an
involution: `-(-a) == a`. -/
theorem neg_neg_self (SIZE : Nat) (a : UBigInteger SIZE) (ha : a.WF) :
    neg (neg a) = a ∧ eq (neg (neg a)) a = true := by
  obtain ⟨hw1, hv1⟩ := neg_mod a ha
  obtain ⟨hw2, hv2⟩ := neg_mod (neg a) hw1
  have hlt := value_lt a ha
  have hv : (neg (neg a)).value = a.value := by
    rw [hv2, hv1]
    by_cases hz : a.value = 0
    · rw [hz]; simp
    · have e : (2 ^ SIZE - a.value) % 2 ^ SIZE = 2 ^ SIZE - a.value :=
        Nat.mod_eq_of_lt (by omega)
      rw [e, show 2 ^ SIZE - (2 ^ SIZE - a.value) = a.value by omega, Nat.mod_eq_of_lt hlt]
  have h := value_inj _ _ hw2 ha hv
  exact ⟨h, by rw [h]; simp [eq]⟩

/-- Witness of C12 at the 16-bit width: negating 5 twice. -/
theorem neg_neg_self_witness :
    neg (neg (⟨[5, 0]⟩ : UBigInteger 16)) = ⟨[5, 0]⟩ :=
  (neg_neg_self 16 ⟨[5, 0]⟩ (by decide)).1

/-- C16: for every pair of well-formed values of one width, `a == b` holds
exactly when the limbs are pairwise equal, which is exactly when the values are
equal; `a != b` is its negation. -/
theorem eq_iff_limbs_iff_value (SIZE : Nat) (a b : UBigInteger SIZE)
    (ha : a.WF) (hb : b.WF) :
    (eq a b = true ↔ ∀ i, i < SIZE / 8 → a.data.getD i 0 = b.data.getD i 0) ∧
    (eq a b = true ↔ a.value = b.value) ∧
    ne a b = !(eq a b) := by
  have h1 : eq a b = true ↔ a.data = b.data := by simp [eq]
  refine ⟨?_, ?_, rfl⟩
  · rw [h1]
    constructor
    · intro h i _; rw [h]
    · intro h
      apply List.ext_getElem
      · rw [ha.2.2.1, hb.2.2.1]
      · intro n hn1 hn2
        have := h n (by rw [← ha.2.2.1]; exact hn1)
        rwa [List.getD_eq_getElem _ _ hn1, List.getD_eq_getElem _ _ hn2] at this
  · rw [h1]
    constructor
    · intro h; simp only [value, h]
    · intro h; rw [value_inj a b ha hb h]

/-- Witness of C16 at the 16-bit width: 256 and 1 are not equal. -/
theorem eq_iff_limbs_iff_value_witness :
    (eq (⟨[0, 1]⟩ : UBigInteger 16) ⟨[1, 0]⟩ = true ↔
      (⟨[0, 1]⟩ : UBigInteger 16).value = (⟨[1, 0]⟩ : UBigInteger 16).value) :=
  (eq_iff_limbs_iff_value 16 ⟨[0, 1]⟩ ⟨[1, 0]⟩ (by decide) (by decide)).2.1

/-- C18: for every width and every pair of well-formed values, `compareTo` is the
three-way comparison of the values with limb 0 dropped, `value / 256`; at the
one-limb width it is 0 for every pair. -/
theorem compareTo_drops_limb_zero (SIZE : Nat) (a b : UBigInteger SIZE)
    (ha : a.WF) (hb : b.WF) :
    (compareTo a b =
      if a.value / 256 < b.value / 256 then -1
      else if a.value / 256 > b.value / 256 then 1 else 0) ∧
    (compareTo a b = -1 ↔ a.value / 256 < b.value / 256) ∧
    (compareTo a b = 1 ↔ a.value / 256 > b.value / 256) ∧
    (compareTo a b = 0 ↔ a.value / 256 = b.value / 256) ∧
    (SIZE = 8 → compareTo a b = 0) := by
  have h := compareTo_eq_cmp a b ha hb
  refine ⟨h, ?_, ?_, ?_, ?_⟩
  · rw [h]; split_ifs <;> constructor <;> intro h' <;> first | omega | rfl | simp at h'
  · rw [h]; split_ifs <;> constructor <;> intro h' <;> first | omega | rfl | simp at h'
  · rw [h]; split_ifs <;> constructor <;> intro h' <;> first | omega | rfl | simp at h'
  · intro h8
    subst h8
    simp [compareTo, compareLoop]

/-- Witness of C18 at the 64-bit width: 1 against 2 compares as 0 against 0. -/
theorem compareTo_drops_limb_zero_witness :
    compareTo (⟨[1, 0, 0, 0, 0, 0, 0, 0]⟩ : UBigInteger 64) ⟨[2, 0, 0, 0, 0, 0, 0, 0]⟩ =
      if (⟨[1, 0, 0, 0, 0, 0, 0, 0]⟩ : UBigInteger 64).value / 256
          < (⟨[2, 0, 0, 0, 0, 0, 0, 0]⟩ : UBigInteger 64).value / 256 then -1
      else if (⟨[1, 0, 0, 0, 0, 0, 0, 0]⟩ : UBigInteger 64).value / 256
          > (⟨[2, 0, 0, 0, 0, 0, 0, 0]⟩ : UBigInteger 64).value / 256 then 1 else 0 :=
  (compareTo_drops_limb_zero 64 ⟨[1, 0, 0, 0, 0, 0, 0, 0]⟩ ⟨[2, 0, 0, 0, 0, 0, 0, 0]⟩
    (by decide) (by decide)).1

/-- C19: compound divide leaves its receiver as it was, for every dividend and
every divisor, in either build and whatever lies past the arrays: the body of
`operator/=`, run statement group after statement group on the frame of the
call (the receiver, the argument and the locals), ends in a return or a fault
with the receiver of the frame still the dividend it was called on.  The fast
path, the division-by-zero error and the whole normalise, scale and quotient
loop sequence are paths of this run. -/
theorem divAssignRun_receiver_unchanged (SIZE : Nat) (assertions : Bool)
    (oob : Nat → Nat) (a b : UBigInteger SIZE) :
    (divAssignRun assertions oob a b).1.self = a ∧
    (divAssignRun assertions oob a b).1.self.data = a.data ∧
    (divAssignRun assertions oob a b).2 ≠ none := by
  have h := divAssignBody_self assertions oob (enterFrame a b)
  have he := divAssignBody_ends assertions oob (enterFrame a b)
  simp only [divAssignRun]
  exact ⟨h, by rw [h]; rfl, he⟩

/-- Witness of C19 at the 64-bit width, one call on each path of `300 /= b`: the
fast path (`b = 700`), the division-by-zero error (`b = 0`), and the whole loop
sequence (`b = 7`, with bytes 1 past the arrays), which scales the local
`dividend` to `300 * 36` and returns; the receiver is 300 after each. -/
theorem divAssignRun_receiver_unchanged_witness :
    (divAssignRun true (fun _ => 1) (⟨[44, 1, 0, 0, 0, 0, 0, 0]⟩ : UBigInteger 64)
      ⟨[188, 2, 0, 0, 0, 0, 0, 0]⟩).2 = some (.ok (.localResult (zero 64))) ∧
    (divAssignRun true (fun _ => 1) (⟨[44, 1, 0, 0, 0, 0, 0, 0]⟩ : UBigInteger 64)
      ⟨[0, 0, 0, 0, 0, 0, 0, 0]⟩).2 = some (.error .arithError) ∧
    (divAssignRun true (fun _ => 1) (⟨[44, 1, 0, 0, 0, 0, 0, 0]⟩ : UBigInteger 64)
      ⟨[7, 0, 0, 0, 0, 0, 0, 0]⟩).2 = some (.ok (.localResult (zero 64))) ∧
    (divAssignRun true (fun _ => 1) (⟨[44, 1, 0, 0, 0, 0, 0, 0]⟩ : UBigInteger 64)
      ⟨[7, 0, 0, 0, 0, 0, 0, 0]⟩).1.dividend = ⟨[48, 42, 0, 0, 0, 0, 0, 0]⟩ ∧
    (divAssignRun true (fun _ => 1) (⟨[44, 1, 0, 0, 0, 0, 0, 0]⟩ : UBigInteger 64)
      ⟨[7, 0, 0, 0, 0, 0, 0, 0]⟩).1.self = ⟨[44, 1, 0, 0, 0, 0, 0, 0]⟩ :=
  ⟨rfl, rfl, rfl, rfl,
    (divAssignRun_receiver_unchanged 64 true (fun _ => 1) ⟨[44, 1, 0, 0, 0, 0, 0, 0]⟩
      ⟨[7, 0, 0, 0, 0, 0, 0, 0]⟩).1⟩

/-- C20, at the failing input: in the 64-bit width with `a = 300` and `b = 7` (a
nonzero divisor that is not greater than `a`) the normalisation scan starts at
index `SIZE - 1 = 63`, outside the 8 limbs; and entered at the last limb, index
7, the same scan would leave with `d = 0`, the divisor of the scale
`BASE / d`. -/
theorem divAssign_scan_out_of_range :
    (⟨[7, 0, 0, 0, 0, 0, 0, 0]⟩ : UBigInteger 64).value ≠ 0 ∧
    gt (⟨[7, 0, 0, 0, 0, 0, 0, 0]⟩ : UBigInteger 64) ⟨[44, 1, 0, 0, 0, 0, 0, 0]⟩ = false ∧
    readLimb (⟨[7, 0, 0, 0, 0, 0, 0, 0]⟩ : UBigInteger 64).data (64 - 1)
      = .error .outOfRange ∧
    normalizeLoop [7, 0, 0, 0, 0, 0, 0, 0] [44, 1, 0, 0, 0, 0, 0, 0] 0 (64 - 1) 0 0
      = .error .outOfRange ∧
    normalizeLoop [7, 0, 0, 0, 0, 0, 0, 0] [44, 1, 0, 0, 0, 0, 0, 0] 0 7 0 0
      = .ok (0, 0) ∧
    (divAssign (⟨[44, 1, 0, 0, 0, 0, 0, 0]⟩ : UBigInteger 64)
      ⟨[7, 0, 0, 0, 0, 0, 0, 0]⟩).2 = .error .outOfRange :=
  ⟨by decide, by decide, rfl, rfl, rfl, rfl⟩

/-- C14: for a native unsigned source of `k` bytes, `k` one of 1, 2, 4, 8, holding
the value `v`: when the limb count is at least `k` the constructor yields limbs
whose low `k` limbs are the bytes of `v`, least significant first, and whose other
limbs are zero, so that the value is `v`; when the limb count is smaller than `k`
it fails its capacity check.  Default construction yields the value 0. -/
theorem ofUnsigned_widens (SIZE k v : Nat) (h8 : SIZE % 8 = 0)
    (hk : k = 1 ∨ k = 2 ∨ k = 4 ∨ k = 8) (hv : v < 2 ^ (8 * k)) :
    (ofUInt8 SIZE v = init SIZE 1 v ∧ ofUInt16 SIZE v = init SIZE 2 v ∧
      ofUInt32 SIZE v = init SIZE 4 v ∧ ofUInt64 SIZE v = init SIZE 8 v) ∧
    (k ≤ SIZE / 8 → ∃ r : UBigInteger SIZE, init SIZE k v = .ok r ∧ r.WF ∧
      (∀ i, i < k → r.data.getD i 0 = (v / 256 ^ i) % 256) ∧
      (∀ i, k ≤ i → i < SIZE / 8 → r.data.getD i 0 = 0) ∧
      r.value = v) ∧
    (SIZE / 8 < k → init SIZE k v = .error .assertCapacity) ∧
    (zero SIZE).value = 0 := by
  refine ⟨⟨rfl, rfl, rfl, rfl⟩, fun h => ?_, fun h => init_fault SIZE k v h, ?_⟩
  · obtain ⟨r, h1, h2, h3, h4, h5⟩ := init_spec SIZE k v h8 (by omega) h hv
    exact ⟨r, h1, h2, h4, fun i hi _ => h5 i hi, h3⟩
  · simp only [value, zero, limbsValue_replicate_zero]

/-- Witness of C14: the 16-bit source `0x1234` in the 32-bit width. -/
theorem ofUnsigned_widens_witness :
    ∃ r : UBigInteger 32, init 32 2 0x1234 = .ok r ∧ r.WF ∧
      (∀ i, i < 2 → r.data.getD i 0 = (0x1234 / 256 ^ i) % 256) ∧
      (∀ i, 2 ≤ i → i < 32 / 8 → r.data.getD i 0 = 0) ∧
      r.value = 0x1234 :=
  (ofUnsigned_widens 32 2 0x1234 (by decide) (by decide) (by decide)).2.1 (by decide)

/-- C15, at the failing input: built with `NDEBUG`, where the sign `assert` is
compiled out, the `int8_t` source `-1` in the 16-bit width is constructed without
any error into the limbs `{0xff, 0x00}`, the value 255: the bits of the negative
source are reinterpreted.  Built with assertions compiled in, the same call fails
its sign assertion. -/
theorem ofSigned_ndebug_reinterprets :
    ofSignedIn false 16 1 (-1) = .ok ⟨[255, 0]⟩ ∧
    (⟨[255, 0]⟩ : UBigInteger 16).value = 255 ∧
    ofSignedIn true 16 1 (-1) = .error .assertPositive ∧
    ofInt8 16 (-1) = .error .assertPositive :=
  ⟨rfl, by decide, rfl, rfl⟩

/-- C13: in the 64-bit width, for every pair of well-formed values, `a - b` has
value `(value a - value b) mod 2 ^ 64`; with `a = 5` and `b = 3`, `a - b` is 2
and `b - a` is `2 ^ 64 - 2`. -/
theorem sub_value_64 (a b : UBigInteger 64) (ha : a.WF) (hb : b.WF) :
    ((sub a b).value : Int) = ((a.value : Int) - b.value) % 2 ^ 64 ∧
    ((subAssign a b).value : Int) = ((a.value : Int) - b.value) % 2 ^ 64 ∧
    (a.value = 5 → b.value = 3 →
      (sub a b).value = 2 ∧ (sub b a).value = 2 ^ 64 - 2) := by
  have h1 := subAssign_value_le64 a b ha hb (le_refl 64)
  have h2 := subAssign_value_le64 b a hb ha (le_refl 64)
  refine ⟨h1, h1, fun h5 h3 => ?_⟩
  simp only [sub]
  rw [h5, h3] at h1
  rw [h5, h3] at h2
  norm_num at h1 h2
  constructor
  · exact_mod_cast h1
  · have : ((subAssign b a).value : Int) = ((2 ^ 64 - 2 : Nat) : Int) := by
      rw [h2]; norm_num
    exact_mod_cast this

/-- Witness of C13: 5 and 3 in the 64-bit width. -/
theorem sub_value_64_witness :
    (sub (⟨[5, 0, 0, 0, 0, 0, 0, 0]⟩ : UBigInteger 64) ⟨[3, 0, 0, 0, 0, 0, 0, 0]⟩).value = 2 ∧
    (sub (⟨[3, 0, 0, 0, 0, 0, 0, 0]⟩ : UBigInteger 64) ⟨[5, 0, 0, 0, 0, 0, 0, 0]⟩).value
      = 2 ^ 64 - 2 :=
  (sub_value_64 ⟨[5, 0, 0, 0, 0, 0, 0, 0]⟩ ⟨[3, 0, 0, 0, 0, 0, 0, 0]⟩ (by decide)
    (by decide)).2.2 (by decide) (by decide)

/-- C17: with the hex encoder and the leading-zero stripper modelled from the
specification, `toPrettyString` of every well-formed value is the lowercase
hexadecimal text of the limbs, most significant first, without leading zeros and
with at least one digit: it is not empty, has only the digits `0`..`9`, `a`..`f`,
starts with `0` only when it is the text `0`, and denotes the value; the zero value
renders as `0` and the value `0x1F` as `1f`. -/
theorem toPrettyString_hex (SIZE : Nat) (a : UBigInteger SIZE) (ha : a.WF) :
    (toPrettyString a).data ≠ [] ∧
    (∀ c ∈ (toPrettyString a).data, c ∈ hexDigits) ∧
    ((toPrettyString a).data.head? = some '0' → toPrettyString a = "0") ∧
    hexValue (toPrettyString a).data = a.value ∧
    (a.value = 0 → toPrettyString a = "0") ∧
    (a.value = 0x1F → toPrettyString a = "1f") := by
  obtain ⟨h8, h0, hlen, hlt⟩ := ha
  have hL : 0 < SIZE / 8 := by omega
  obtain ⟨h1, h2, h3, h4⟩ := removeZeros_spec (HexStr a.data.reverse)
  have hne : HexStr a.data.reverse ≠ [] := by
    cases hd : a.data.reverse with
    | nil => simp at hd; rw [hd] at hlen; simp at hlen; omega
    | cons x xs => simp [HexStr]
  refine ⟨h2 hne, fun c hc => HexStr_mem _ c (h3 c hc), fun h => ?_, ?_, fun hz => ?_,
    fun hv => ?_⟩
  · simp only [toPrettyString] at h ⊢
    rw [h4 h]
  · simp only [toPrettyString]
    rw [h1, hexValue_HexStr_reverse a.data hlt, value]
  · have hd : a.data = List.replicate (SIZE / 8) 0 := by
      rw [← hlen]; exact limbsValue_eq_zero a.data hz
    simp only [toPrettyString]
    rw [hd, List.reverse_replicate, HexStr_replicate_zero,
      show 2 * (SIZE / 8) = (2 * (SIZE / 8) - 1) + 1 by omega, removeZeros_zeros]
  · have hd : a.data = 0x1F :: List.replicate (SIZE / 8 - 1) 0 := by
      apply limbsValue_inj _ _ (by simp; omega) hlt
      · intro x hx
        simp only [List.mem_cons] at hx
        rcases hx with h | h
        · rw [h]; norm_num
        · rw [List.eq_of_mem_replicate h]; norm_num
      · simp only [limbsValue, limbsValue_replicate_zero]
        exact hv
    simp only [toPrettyString]
    rw [hd, List.reverse_cons, List.reverse_replicate, HexStr_append, HexStr_replicate_zero]
    have : HexStr [0x1F] = ['1', 'f'] := by decide
    rw [this, removeZeros_zeros_append _ _ _ _ (by decide)]

/-- Witness of C17 at the 64-bit width: the value `0x1F`. -/
theorem toPrettyString_hex_witness :
    toPrettyString (⟨[0x1F, 0, 0, 0, 0, 0, 0, 0]⟩ : UBigInteger 64) = "1f" :=
  (toPrettyString_hex 64 ⟨[0x1F, 0, 0, 0, 0, 0, 0, 0]⟩ (by decide)).2.2.2.2.2 (by decide)

end nnoops
